import Mathlib

/-!
Verification of the peritumoral-ring morphology routines and the
annotation bounding-box extraction of the gastricTstaging repository
(`lib/morphology.ts`).

The shallow embedding below mirrors the source:

* a binary mask is a function from row-major pixel indices to `Bool`
  (`binaryMask`), together with the canvas dimensions;
* the multi-source BFS of `generatePeritumoralRingFromAnnotation`
  (lines 100-152) is embedded as `bfsAux` over an explicit worklist
  (a growing list of pixel indices plus a head pointer) and a distance
  buffer `Nat → Int` pre-filled with the sentinel `-1`;
* the ring-painting loop (lines 154-169) becomes `ringPainted` /
  `ringImage`;
* the error paths of both generators and the bounding-box extractor
  of the annotation utility module are embedded as `Except` values and
  `Option` results.

`D g p` is the minimum 4-connected grid distance from pixel `p` to the
nearest foreground pixel (in an unobstructed grid this is the minimum
Manhattan distance over all foreground pixels).
-/

/-- An RGBA pixel, as the four entries of an `ImageData` buffer. -/
structure RGBA where
  r : Int
  g : Int
  b : Int
  a : Int
deriving DecidableEq

/-- The binary mask extracted from the canvas: dimensions plus a
foreground predicate on row-major pixel indices (`binaryMask` in the
source).  Indices `≥ w * h` are never read by the algorithm. -/
structure Grid where
  w : Nat
  h : Nat
  mask : Nat → Bool

/-- Foreground pixel indices, in row-major order (the pixels with
`binaryMask[idx] === 1`). -/
def fgList (g : Grid) : List Nat :=
  (List.range (g.w * g.h)).filter g.mask

/-- `foregroundCount` of the source (number of foreground pixels). -/
def foregroundCount (g : Grid) : Nat :=
  (fgList g).length

/-- The edge test of the seed loop (morphology.ts lines 109-114): a
foreground pixel is an edge pixel when one of its in-bounds 4-neighbours
is background. -/
def isEdgeb (g : Grid) (i : Nat) : Bool :=
  (decide (0 < i % g.w) && !g.mask (i - 1)) ||
  (decide (i % g.w < g.w - 1) && !g.mask (i + 1)) ||
  (decide (0 < i / g.w) && !g.mask (i - g.w)) ||
  (decide (i / g.w < g.h - 1) && !g.mask (i + g.w))

/-- A pixel enqueued by the seed loop: an in-range foreground edge pixel. -/
def isSeed (g : Grid) (i : Nat) : Bool :=
  decide (i < g.w * g.h) && g.mask i && isEdgeb g i

/-- The initial BFS queue (morphology.ts lines 105-122): all foreground
edge pixels, in row-major order. -/
def seedList (g : Grid) : List Nat :=
  (List.range (g.w * g.h)).filter (fun i => g.mask i && isEdgeb g i)

/-- The initial distance buffer: `0` on the seeds, sentinel `-1`
elsewhere (`new Int16Array(w*h).fill(-1)` plus the seed loop). -/
def dist0 (g : Grid) : Nat → Int :=
  fun i => if isSeed g i then 0 else -1

/-- The in-bounds 4-neighbours of pixel `i` (morphology.ts lines
134-151): each candidate is kept exactly under the source's bounds
checks `n.x >= 0 && n.x < width && n.y >= 0 && n.y < height`. -/
def nbrs (g : Grid) (i : Nat) : List Nat :=
  (if 0 < i % g.w ∧ i % g.w - 1 < g.w ∧ i / g.w < g.h then [i - 1] else []) ++
  (if i % g.w + 1 < g.w ∧ i / g.w < g.h then [i + 1] else []) ++
  (if i % g.w < g.w ∧ 0 < i / g.w ∧ i / g.w - 1 < g.h then [i - g.w] else []) ++
  (if i % g.w < g.w ∧ i / g.w + 1 < g.h then [i + g.w] else [])

/-- Processing one neighbour `n` of a dequeued pixel with distance `d`
(morphology.ts lines 144-151): if `n` is unvisited background, assign
distance `d + 1` and push it. -/
def relaxOne (g : Grid) (d : Int) (s : List Nat × (Nat → Int)) (n : Nat) :
    List Nat × (Nat → Int) :=
  if g.mask n = false ∧ s.2 n = -1 then
    (s.1 ++ [n], fun j => if j = n then d + 1 else s.2 j)
  else s

/-- The BFS while-loop (morphology.ts lines 127-152), fuelled: dequeue
the pixel at `head`; if its distance has reached `radius`, skip
expansion; otherwise relax its 4-neighbours.  Returns the final
(queue, head, distance buffer) state. -/
def bfsAux (g : Grid) (radius : Nat) :
    Nat → List Nat → Nat → (Nat → Int) → List Nat × Nat × (Nat → Int)
  | 0, q, head, dist => (q, head, dist)
  | fuel + 1, q, head, dist =>
    match q[head]? with
    | none => (q, head, dist)
    | some i =>
      if (radius : Int) ≤ dist i then
        bfsAux g radius fuel q (head + 1) dist
      else
        let s := (nbrs g i).foldl (relaxOne g (dist i)) (q, dist)
        bfsAux g radius fuel s.1 (head + 1) s.2

/-- The BFS state after at most `fuel` dequeues, started from the seeds. -/
def bfsState (g : Grid) (radius : Nat) (fuel : Nat) :
    List Nat × Nat × (Nat → Int) :=
  bfsAux g radius fuel (seedList g) 0 (dist0 g)

/-- The final distance buffer: the loop terminates after at most
`w * h` dequeues, so `w * h + 1` units of fuel always suffice. -/
def distances (g : Grid) (radius : Nat) : Nat → Int :=
  (bfsState g radius (g.w * g.h + 1)).2.2

/-- The painting condition of the output loop (morphology.ts line 159):
pixel `i` is painted as ring exactly when `distances[i] > 0 &&
distances[i] <= radius`. -/
def ringPainted (g : Grid) (radius : Nat) (i : Nat) : Bool :=
  decide (i < g.w * g.h) && decide (0 < distances g radius i) &&
    decide (distances g radius i ≤ (radius : Int))

/-- The alpha fade of a painted pixel (morphology.ts line 162):
`Math.round(color[3] * (1 - (d - 1) / radius * 0.5))`. -/
def alphaOf (colorA : Int) (d : Int) (radius : Nat) : Int :=
  round ((colorA : ℚ) * (1 - ((d : ℚ) - 1) / (radius : ℚ) * (1 / 2)))

/-- The generated ring image (morphology.ts lines 154-169): painted
pixels get the ring colour with faded alpha, all others stay fully
transparent (`createImageData` zero-initialises the buffer). -/
def ringImage (g : Grid) (radius : Nat) (color : RGBA) : Nat → RGBA :=
  fun i =>
    if i < g.w * g.h ∧ 0 < distances g radius i ∧
        distances g radius i ≤ (radius : Int) then
      ⟨color.r, color.g, color.b, alphaOf color.a (distances g radius i) radius⟩
    else ⟨0, 0, 0, 0⟩

/-- Manhattan distance between the row-major pixel indices `i` and `j`
on a grid of width `w`; on an unobstructed grid this is the minimum
4-connected path length. -/
def manh (w : Nat) (i j : Nat) : Nat :=
  Nat.dist (i % w) (j % w) + Nat.dist (i / w) (j / w)

/-- Minimum 4-connected grid distance from pixel `p` to the nearest
foreground pixel.  The default `g.w + g.h` exceeds every in-grid
Manhattan distance, so for a nonempty foreground the fold attains the
true minimum. -/
def D (g : Grid) (p : Nat) : Nat :=
  ((fgList g).map (manh g.w p)).foldr min (g.w + g.h)

/-- A 3×3 grid whose single foreground pixel is the centre (used as a
concrete instance). -/
def gW : Grid := ⟨3, 3, fun i => decide (i = 4)⟩

/-- The 100×100 scenario mask: a filled foreground square with corners
(45,45) and (55,55), all other pixels background. -/
def g4 : Grid :=
  ⟨100, 100, fun i =>
    decide (45 ≤ i % 100 ∧ i % 100 ≤ 55 ∧ 45 ≤ i / 100 ∧ i / 100 ≤ 55)⟩

/-- The foreground heuristic of the legacy raster-mask path
(morphology.ts line 219): `(a > 20 && (r+g+b) > 30) || (g > 50 && g > r
&& g > b)`. -/
def isForegroundPix (p : RGBA) : Bool :=
  (decide (20 < p.a) && decide (30 < p.r + p.g + p.b)) ||
  (decide (50 < p.g) && decide (p.r < p.g) && decide (p.b < p.g))

/-- The legacy generator `generatePeritumoralRing` (morphology.ts lines
181-307): threshold the decoded mask image into a binary mask, reject
when no foreground pixel exists, otherwise run the shared BFS/paint
pipeline.  `img` is the decoded image, `w`/`h` its dimensions. -/
def generatePeritumoralRing (img : Nat → RGBA) (w h : Nat) (radius : Nat)
    (color : RGBA) : Except String (Nat → RGBA) :=
  let g : Grid := ⟨w, h, fun i => isForegroundPix (img i)⟩
  if foregroundCount g = 0 then
    Except.error ("No foreground pixels found in mask")
  else Except.ok (ringImage g radius color)

/-- An annotation shape (`AnnotationShape` of morphology.ts); the
unused `shape_type` field is omitted. -/
structure AnnotationShape where
  label : String
  points : List (Int × Int)
deriving DecidableEq

/-- The mask drawn from an annotation (morphology.ts lines 63-92):
every shape with at least 3 points is filled (shapes with fewer points
are skipped by the guard on line 66), and a pixel is foreground when
some drawn polygon covers it (white, red channel `> 128`).  The
per-polygon coverage predicate `fill` abstracts the browser canvas
`fill()` call, which is not part of the repository. -/
def rasterizeMask (fill : List (Int × Int) → Nat → Nat → Bool)
    (shapes : List AnnotationShape) (w : Nat) : Nat → Bool :=
  fun i => shapes.any (fun s => decide (3 ≤ s.points.length) &&
    fill s.points (i % w) (i / w))

/-- `generatePeritumoralRingFromAnnotation` (morphology.ts lines
34-175) after the fetch: reject an empty shape list (line 48), draw the
mask, reject a mask with zero foreground pixels (lines 96-98), else run
the BFS and return the painted ring image. -/
def generatePeritumoralRingFromAnnotation
    (fill : List (Int × Int) → Nat → Nat → Bool)
    (shapes : List AnnotationShape) (w h radius : Nat) (color : RGBA) :
    Except String (Nat → RGBA) :=
  if shapes.length = 0 then Except.error ("No shapes found in annotation")
  else
    let g : Grid := ⟨w, h, rasterizeMask fill shapes w⟩
    if foregroundCount g = 0 then
      Except.error ("No foreground pixels found in mask")
    else Except.ok (ringImage g radius color)

/-- Modelled from the spec: polygon rasterization ("rasterized by
filling", "via scanline fill").  The source delegates this step to the
browser canvas 2D API, which is not part of the repository; here a
pixel is covered when its centre lies inside the polygon by the even-odd
crossing rule (coordinates are doubled so that pixel centres are the odd
integer points, avoiding ties). -/
def specFill (pts : List (Int × Int)) (x y : Nat) : Bool :=
  let cx : Int := 2 * (x : Int) + 1
  let cy : Int := 2 * (y : Int) + 1
  let edges := pts.zip (pts.rotate 1)
  decide ((edges.countP (fun e =>
    let x1 := 2 * e.1.1
    let y1 := 2 * e.1.2
    let x2 := 2 * e.2.1
    let y2 := 2 * e.2.2
    decide (((y1 ≤ cy ∧ cy < y2) ∨ (y2 ≤ cy ∧ cy < y1)) ∧
      (cx - x1) * (y2 - y1) * (y2 - y1) <
        (cy - y1) * (x2 - x1) * (y2 - y1)))) % 2 = 1)

/-- An annotation holding one degenerate polygon (2 points) and one
valid square polygon covering the whole 4×4 canvas. -/
def cexShapes : List AnnotationShape :=
  [⟨"degenerate", [(0, 0), (2, 0)]⟩,
   ⟨"lesion", [(0, 0), (4, 0), (4, 4), (0, 4)]⟩]

/-- An annotation whose only shape is degenerate. -/
def degShapes : List AnnotationShape := [⟨"deg", [(0, 0), (1, 1)]⟩]

namespace Bbox

/-- A shape of the annotation-utility module: optional label, and
point coordinates wrapped in `Option` to model non-numeric JSON
entries, which the source filters out with a `typeof` guard. -/
structure AnnotationShape where
  label : Option String
  points : List (Option Int × Option Int)
deriving DecidableEq

structure AnnotationBbox where
  x1 : Int
  y1 : Int
  x2 : Int
  y2 : Int
deriving DecidableEq

def LABEL_KEYWORDS : List String := ["lesion", "roi", "tumor", "target"]

/-- `hay.includes(sub)` on char lists. -/
def includesSub (hay sub : List Char) : Bool :=
  (List.range (hay.length + 1)).any (fun k => sub.isPrefixOf (hay.drop k))

/-- `matchesAnnotation`: a label matches when its lowercased text
contains one of the keywords; a missing label never matches. -/
def matchesAnnotation (label : Option String) : Bool :=
  match label with
  | none => false
  | some l => LABEL_KEYWORDS.any
      (fun k => includesSub (l.data.map Char.toLower) k.data)

/-- `xMin = Math.min(xMin, x)` with `none` as the `Infinity` sentinel. -/
def omin (a : Option Int) (x : Int) : Option Int :=
  some (match a with | none => x | some v => min v x)

/-- `xMax = Math.max(xMax, x)` with `none` as the `-Infinity` sentinel. -/
def omax (a : Option Int) (x : Int) : Option Int :=
  some (match a with | none => x | some v => max v x)

/-- One step of the point loop: update the four accumulators
(xMin, yMin, xMax, yMax) when both coordinates are numeric, otherwise
skip the point. -/
def stepPoint (acc : Option Int × Option Int × Option Int × Option Int)
    (pt : Option Int × Option Int) :
    Option Int × Option Int × Option Int × Option Int :=
  match pt with
  | (some x, some y) =>
    (omin acc.1 x, omin acc.2.1 y, omax acc.2.2.1 x, omax acc.2.2.2 y)
  | _ => acc

/-- `extractAnnotationBbox`: empty shape list gives `null`; otherwise
fold the points of the keyword-filtered shapes (falling back to all
shapes when none match) and return the box, or `null` when the
accumulators were never updated. -/
def extractAnnotationBbox (shapes : List AnnotationShape) :
    Option AnnotationBbox :=
  if shapes.length = 0 then none
  else
    let filtered := shapes.filter (fun s => matchesAnnotation s.label)
    let candidates := if 0 < filtered.length then filtered else shapes
    let acc := candidates.foldl (fun a s => s.points.foldl stepPoint a)
      (none, none, none, none)
    match acc with
    | (some a, some b, some c, some d) => some ⟨a, b, c, d⟩
    | _ => none

/-- The candidate set of the fold: the keyword-filtered shapes when
nonempty, otherwise all shapes. -/
def candidatesOf (shapes : List AnnotationShape) : List AnnotationShape :=
  let filtered := shapes.filter (fun s => matchesAnnotation s.label)
  if 0 < filtered.length then filtered else shapes

/-- `stepPoint` restricted to a numeric point. -/
def vstep (a : Option Int × Option Int × Option Int × Option Int)
    (xy : Int × Int) : Option Int × Option Int × Option Int × Option Int :=
  (omin a.1 xy.1, omin a.2.1 xy.2, omax a.2.2.1 xy.1, omax a.2.2.2 xy.2)

/-- A point with numeric x and y. -/
def validPt (pt : Option Int × Option Int) : Option (Int × Int) :=
  match pt with
  | (some x, some y) => some (x, y)
  | _ => none

/-- All numeric points contributed by a shape list, in order. -/
def validPoints (shapes : List AnnotationShape) : List (Int × Int) :=
  shapes.foldr (fun s acc => s.points.filterMap validPt ++ acc) []

/-- The box as the spec words it: x1/y1 the minimum and x2/y2 the
maximum coordinates over the given points, `null` when there is none. -/
def bboxOfPoints (pts : List (Int × Int)) : Option AnnotationBbox :=
  match pts with
  | [] => none
  | p :: rest =>
    some ⟨rest.foldl (fun m q => min m q.1) p.1,
      rest.foldl (fun m q => min m q.2) p.2,
      rest.foldl (fun m q => max m q.1) p.1,
      rest.foldl (fun m q => max m q.2) p.2⟩

def liverShape : AnnotationShape :=
  ⟨some ("liver"),
    [(some 100, some 100), (some 200, some 100), (some 150, some 200)]⟩

def tumorShape : AnnotationShape :=
  ⟨some ("tumor_lesion"), [(some 0, some 0), (some 10, some 0), (some 0, some 10)]⟩

/-- A single unlabeled triangle (0,0), (10,0), (0,10). -/
def triShape : AnnotationShape :=
  ⟨none, [(some 0, some 0), (some 10, some 0), (some 0, some 10)]⟩

/-- A shape list whose only keyword-matching shape has no points while
a non-matching shape has valid numeric points. -/
def cex9 : List AnnotationShape :=
  [⟨some ("lesion"), []⟩,
   ⟨some ("liver"), [(some 0, some 0), (some 1, some 1), (some 2, some 0)]⟩]

end Bbox

section FoldMin

theorem foldr_min_le_mem {l : List Nat} {x : Nat} (d : Nat) (hx : x ∈ l) :
    l.foldr min d ≤ x := by
  induction l with
  | nil => cases hx
  | cons a t ih =>
    rcases List.mem_cons.mp hx with rfl | hx
    · exact min_le_left _ _
    · exact le_trans (min_le_right _ _) (ih hx)

theorem foldr_min_le_default (l : List Nat) (d : Nat) :
    l.foldr min d ≤ d := by
  induction l with
  | nil => exact le_refl d
  | cons a t ih => exact le_trans (min_le_right _ _) ih

theorem foldr_min_cases (l : List Nat) (d : Nat) :
    l.foldr min d = d ∨ l.foldr min d ∈ l := by
  induction l with
  | nil => exact Or.inl rfl
  | cons a t ih =>
    rcases le_or_lt a (t.foldr min d) with h | h
    · right
      simp [List.foldr, min_eq_left h]
    · rcases ih with h' | h'
      · left
        simpa [List.foldr, min_eq_right h.le] using h'
      · right
        simp only [List.foldr]
        rw [min_eq_right h.le]
        exact List.mem_cons_of_mem _ h'

theorem le_foldr_min {l : List Nat} {d c : Nat} (hd : c ≤ d)
    (h : ∀ x ∈ l, c ≤ x) : c ≤ l.foldr min d := by
  induction l with
  | nil => exact hd
  | cons a t ih =>
    exact le_min (h a (List.mem_cons_self a t))
      (ih fun x hx => h x (List.mem_cons_of_mem _ hx))

end FoldMin

section Coords

theorem grid_pos {w h i : Nat} (hi : i < w * h) : 0 < w ∧ 0 < h := by
  constructor
  · rcases Nat.eq_zero_or_pos w with rfl | hw
    · simp at hi
    · exact hw
  · rcases Nat.eq_zero_or_pos h with rfl | hh
    · simp at hi
    · exact hh

theorem coord_lt {w h i : Nat} (hi : i < w * h) : i % w < w ∧ i / w < h := by
  have hw := (grid_pos hi).1
  refine ⟨Nat.mod_lt _ hw, ?_⟩
  exact (Nat.div_lt_iff_lt_mul hw).mpr (by rw [Nat.mul_comm w h] at hi; exact hi)

theorem idx_decomp (w i : Nat) (hw : 0 < w) : (i / w) * w + i % w = i := by
  rw [Nat.mul_comm]
  exact Nat.div_add_mod i w

theorem pack_mod {w x : Nat} (y : Nat) (hx : x < w) : (y * w + x) % w = x := by
  rw [Nat.add_comm, Nat.add_mul_mod_self_right]
  exact Nat.mod_eq_of_lt hx

theorem pack_div {w x : Nat} (y : Nat) (hx : x < w) : (y * w + x) / w = y := by
  have hw : 0 < w := Nat.lt_of_le_of_lt (Nat.zero_le x) hx
  rw [Nat.add_comm, Nat.mul_comm, Nat.add_mul_div_left _ _ hw,
    Nat.div_eq_of_lt hx, Nat.zero_add]

theorem pack_lt {w h x y : Nat} (hx : x < w) (hy : y < h) : y * w + x < w * h :=
  calc y * w + x < y * w + w := by omega
  _ = (y + 1) * w := by ring
  _ ≤ h * w := Nat.mul_le_mul_right w hy
  _ = w * h := Nat.mul_comm h w

theorem manh_comm (w i j : Nat) : manh w i j = manh w j i := by
  simp [manh, Nat.dist_comm]

theorem manh_eq_zero {w h i j : Nat} (hi : i < w * h) (hj : j < w * h)
    (hm : manh w i j = 0) : i = j := by
  have hw := (grid_pos hi).1
  have h1 : i % w = j % w := by
    have := Nat.eq_of_dist_eq_zero (by simp [manh] at hm; omega :
      Nat.dist (i % w) (j % w) = 0)
    exact this
  have h2 : i / w = j / w := by
    have := Nat.eq_of_dist_eq_zero (by simp [manh] at hm; omega :
      Nat.dist (i / w) (j / w) = 0)
    exact this
  calc i = (i / w) * w + i % w := (idx_decomp w i hw).symm
    _ = (j / w) * w + j % w := by rw [h1, h2]
    _ = j := idx_decomp w j hw

theorem manh_triangle (w a b c : Nat) : manh w a c ≤ manh w a b + manh w b c := by
  simp only [manh, Nat.dist]
  omega

end Coords

section DLemmas

theorem mem_fgList {g : Grid} {f : Nat} :
    f ∈ fgList g ↔ f < g.w * g.h ∧ g.mask f = true := by
  simp [fgList, List.mem_filter, List.mem_range]

theorem dist_sum_lt {a b c d w h : Nat} (h1 : a < w) (h2 : c < w) (h3 : b < h)
    (h4 : d < h) : Nat.dist a c + Nat.dist b d < w + h := by
  simp only [Nat.dist]
  omega

theorem manh_lt_default {g : Grid} {p f : Nat} (hp : p < g.w * g.h)
    (hf : f < g.w * g.h) : manh g.w p f < g.w + g.h := by
  obtain ⟨hp1, hp2⟩ := coord_lt hp
  obtain ⟨hf1, hf2⟩ := coord_lt hf
  exact dist_sum_lt hp1 hf1 hp2 hf2

theorem D_le {g : Grid} {p f : Nat} (hf : f ∈ fgList g) :
    D g p ≤ manh g.w p f :=
  foldr_min_le_mem _ (List.mem_map_of_mem (manh g.w p) hf)

theorem D_exists {g : Grid} {p : Nat} (hp : p < g.w * g.h)
    (hfg : fgList g ≠ []) : ∃ f ∈ fgList g, D g p = manh g.w p f := by
  rcases foldr_min_cases ((fgList g).map (manh g.w p)) (g.w + g.h) with hd | hm
  · exfalso
    obtain ⟨f, hf⟩ := List.exists_mem_of_ne_nil _ hfg
    have h1 : D g p ≤ manh g.w p f := D_le hf
    have h2 : manh g.w p f < g.w + g.h :=
      manh_lt_default hp (mem_fgList.mp hf).1
    rw [D] at h1
    omega
  · obtain ⟨f, hf, he⟩ := List.mem_map.mp hm
    exact ⟨f, hf, he.symm⟩

theorem D_pos {g : Grid} {p : Nat} (hp : p < g.w * g.h)
    (hbg : g.mask p = false) (hfg : fgList g ≠ []) : 1 ≤ D g p := by
  obtain ⟨f, hf, he⟩ := D_exists hp hfg
  by_contra h
  push_neg at h
  interval_cases hD : D g p
  · have : p = f := manh_eq_zero hp (mem_fgList.mp hf).1 (by omega)
    subst this
    rw [(mem_fgList.mp hf).2] at hbg
    cases hbg

theorem D_le_adj {g : Grid} {p q : Nat} (hq : q < g.w * g.h)
    (hfg : fgList g ≠ []) (hadj : manh g.w p q = 1) :
    D g p ≤ D g q + 1 := by
  obtain ⟨f, hf, he⟩ := D_exists hq hfg
  calc D g p ≤ manh g.w p f := D_le hf
    _ ≤ manh g.w p q + manh g.w q f := manh_triangle _ _ _ _
    _ = D g q + 1 := by rw [hadj, he]; omega

theorem D_le_one_of_fg_adj {g : Grid} {p q : Nat} (hq : q ∈ fgList g)
    (hadj : manh g.w p q = 1) : D g p ≤ 1 := by
  calc D g p ≤ manh g.w p q := D_le hq
    _ = 1 := hadj

end DLemmas

section NbrLemmas

theorem mem_if_singleton {c : Prop} [Decidable c] {x a : Nat} :
    (x ∈ if c then [a] else ([] : List Nat)) ↔ c ∧ x = a := by
  split <;> simp_all

/-- Unfolded membership in the neighbour list. -/
theorem mem_nbrs_cases {g : Grid} {i n : Nat} (hn : n ∈ nbrs g i) :
    (0 < i % g.w ∧ i % g.w - 1 < g.w ∧ i / g.w < g.h ∧ n = i - 1) ∨
    (i % g.w + 1 < g.w ∧ i / g.w < g.h ∧ n = i + 1) ∨
    (i % g.w < g.w ∧ 0 < i / g.w ∧ i / g.w - 1 < g.h ∧ n = i - g.w) ∨
    (i % g.w < g.w ∧ i / g.w + 1 < g.h ∧ n = i + g.w) := by
  simp only [nbrs, List.mem_append, mem_if_singleton] at hn
  tauto

theorem nbr_left_coords {w i : Nat} (hw : 0 < w) (hx : 0 < i % w) :
    (i - 1) % w = i % w - 1 ∧ (i - 1) / w = i / w := by
  have hd := idx_decomp w i hw
  have hxlt : i % w < w := Nat.mod_lt i hw
  have he : i - 1 = (i / w) * w + (i % w - 1) := by
    generalize i % w = r at *
    generalize (i / w) * w = qq at *
    omega
  rw [he]
  exact ⟨pack_mod _ (by omega), pack_div _ (by omega)⟩

theorem nbr_right_coords {w i : Nat} (hx : i % w + 1 < w) :
    (i + 1) % w = i % w + 1 ∧ (i + 1) / w = i / w := by
  have hw : 0 < w := by omega
  have hd := idx_decomp w i hw
  have he : i + 1 = (i / w) * w + (i % w + 1) := by
    generalize i % w = r at *
    generalize (i / w) * w = qq at *
    omega
  rw [he]
  exact ⟨pack_mod _ hx, pack_div _ hx⟩

theorem nbr_up_coords {w i : Nat} (hw : 0 < w) (hy : 0 < i / w) :
    (i - w) % w = i % w ∧ (i - w) / w = i / w - 1 := by
  have hd := idx_decomp w i hw
  have hxlt : i % w < w := Nat.mod_lt i hw
  have hs : (i / w - 1) * w = (i / w) * w - w := Nat.sub_one_mul _ _
  have hge : w ≤ (i / w) * w := by
    calc w = 1 * w := (Nat.one_mul w).symm
    _ ≤ (i / w) * w := Nat.mul_le_mul_right w hy
  have he : i - w = (i / w - 1) * w + i % w := by
    generalize i % w = r at *
    generalize (i / w - 1) * w = q1 at *
    generalize (i / w) * w = qq at *
    omega
  rw [he]
  exact ⟨pack_mod _ hxlt, pack_div _ hxlt⟩

theorem nbr_down_coords {w i : Nat} (hw : 0 < w) :
    (i + w) % w = i % w ∧ (i + w) / w = i / w + 1 := by
  have hd := idx_decomp w i hw
  have hxlt : i % w < w := Nat.mod_lt i hw
  have hs : (i / w + 1) * w = (i / w) * w + w := Nat.succ_mul _ _
  have he : i + w = (i / w + 1) * w + i % w := by
    generalize i % w = r at *
    generalize (i / w + 1) * w = q1 at *
    generalize (i / w) * w = qq at *
    omega
  rw [he]
  exact ⟨pack_mod _ hxlt, pack_div _ hxlt⟩

theorem dist_next (a : Nat) : Nat.dist a (a + 1) = 1 := by
  simp [Nat.dist]

theorem dist_prev {a : Nat} (h : 0 < a) : Nat.dist a (a - 1) = 1 := by
  simp only [Nat.dist]
  omega

theorem nbr_coords {g : Grid} {i n : Nat} (hi : i < g.w * g.h)
    (hn : n ∈ nbrs g i) :
    n < g.w * g.h ∧ manh g.w i n = 1 := by
  have hw := (grid_pos hi).1
  have hh := (grid_pos hi).2
  obtain ⟨hx, hy⟩ := coord_lt hi
  rcases mem_nbrs_cases hn with ⟨h1, _, _, rfl⟩ | ⟨h1, _, rfl⟩ |
    ⟨_, h1, _, rfl⟩ | ⟨_, h1, rfl⟩
  · obtain ⟨hm, hd⟩ := nbr_left_coords hw h1
    refine ⟨by omega, ?_⟩
    rw [manh, hm, hd, Nat.dist_self, dist_prev h1]
  · obtain ⟨hm, hd⟩ := nbr_right_coords h1
    have hlt : i + 1 < g.w * g.h := by
      have hd2 := idx_decomp g.w i hw
      have := pack_lt (w := g.w) (h := g.h) (x := i % g.w + 1) (y := i / g.w)
        h1 hy
      generalize i % g.w = r at *
      generalize (i / g.w) * g.w = qq at *
      omega
    refine ⟨hlt, ?_⟩
    rw [manh, hm, hd, Nat.dist_self, dist_next]
  · obtain ⟨hm, hd⟩ := nbr_up_coords hw h1
    refine ⟨by omega, ?_⟩
    rw [manh, hm, hd, Nat.dist_self, dist_prev h1]
  · obtain ⟨hm, hd⟩ := nbr_down_coords (i := i) hw
    have hlt : i + g.w < g.w * g.h := by
      have hd2 := idx_decomp g.w i hw
      have := pack_lt (w := g.w) (h := g.h) (x := i % g.w) (y := i / g.w + 1)
        hx h1
      have hs : (i / g.w + 1) * g.w = (i / g.w) * g.w + g.w :=
        Nat.succ_mul _ _
      generalize i % g.w = r at *
      generalize (i / g.w + 1) * g.w = q1 at *
      generalize (i / g.w) * g.w = qq at *
      omega
    refine ⟨hlt, ?_⟩
    rw [manh, hm, hd, Nat.dist_self, dist_next]

theorem nbrs_valid {g : Grid} {i n : Nat} (hi : i < g.w * g.h)
    (hn : n ∈ nbrs g i) : n < g.w * g.h :=
  (nbr_coords hi hn).1

theorem mem_nbrs_left {g : Grid} {i : Nat} (hi : i < g.w * g.h)
    (hx : 0 < i % g.w) : i - 1 ∈ nbrs g i := by
  have hy := (coord_lt hi).2
  have hc : 0 < i % g.w ∧ i % g.w - 1 < g.w ∧ i / g.w < g.h :=
    ⟨hx, by have := (coord_lt hi).1; omega, hy⟩
  simp only [nbrs, List.mem_append, mem_if_singleton]
  tauto

theorem mem_nbrs_right {g : Grid} {i : Nat} (hi : i < g.w * g.h)
    (hx : i % g.w + 1 < g.w) : i + 1 ∈ nbrs g i := by
  have hy := (coord_lt hi).2
  have hc : i % g.w + 1 < g.w ∧ i / g.w < g.h := ⟨hx, hy⟩
  simp only [nbrs, List.mem_append, mem_if_singleton]
  tauto

theorem mem_nbrs_up {g : Grid} {i : Nat} (hi : i < g.w * g.h)
    (hy : 0 < i / g.w) : i - g.w ∈ nbrs g i := by
  have hx := (coord_lt hi).1
  have hy2 := (coord_lt hi).2
  have hc : i % g.w < g.w ∧ 0 < i / g.w ∧ i / g.w - 1 < g.h :=
    ⟨hx, hy, by omega⟩
  simp only [nbrs, List.mem_append, mem_if_singleton]
  tauto

theorem mem_nbrs_down {g : Grid} {i : Nat} (hi : i < g.w * g.h)
    (hy : i / g.w + 1 < g.h) : i + g.w ∈ nbrs g i := by
  have hx := (coord_lt hi).1
  have hc : i % g.w < g.w ∧ i / g.w + 1 < g.h := ⟨hx, hy⟩
  simp only [nbrs, List.mem_append, mem_if_singleton]
  tauto

end NbrLemmas

section BfsInvariant

/-- The invariant of the BFS loop state: `q` is the worklist, `head`
the index of the next pixel to dequeue, `dist` the distance buffer. -/
structure BfsInv (g : Grid) (radius : Nat) (q : List Nat) (head : Nat)
    (dist : Nat → Int) : Prop where
  hd_le : head ≤ q.length
  valid : ∀ p ∈ q, p < g.w * g.h
  nodup : q.Nodup
  mem_iff : ∀ p, dist p ≠ -1 ↔ p ∈ q
  seeds : ∀ p, isSeed g p = true → p ∈ q
  fgv : ∀ p, g.mask p = true → dist p = if isSeed g p then 0 else -1
  bgv : ∀ p, g.mask p = false → dist p ≠ -1 →
    1 ≤ dist p ∧ dist p ≤ (radius : Int) ∧ (D g p : Int) ≤ dist p
  fgne : q ≠ [] → fgList g ≠ []
  sorted : (q.drop head).Pairwise (fun a b => dist a ≤ dist b)
  span : ∀ a ∈ q.drop head, ∀ b ∈ q, dist b ≤ dist a + 1
  proc : ∀ p ∈ q.take head, dist p < (radius : Int) →
    ∀ n ∈ nbrs g p, g.mask n = false → dist n ≠ -1 ∧ dist n ≤ dist p + 1

/-- Specification of the inner neighbour loop: folding `relaxOne` over
the neighbour list appends the newly discovered background pixels to the
queue and assigns them distance `d + 1`, touching nothing else. -/
theorem relax_spec (g : Grid) (d : Int) (hd0 : 0 ≤ d) :
    ∀ (ns : List Nat) (q : List Nat) (dist : Nat → Int),
      (∀ p, dist p ≠ -1 ↔ p ∈ q) →
      q.Nodup →
      (∀ p, dist p ≠ -1 → dist p ≤ d + 1) →
      ∃ delta dist',
        ns.foldl (relaxOne g d) (q, dist) = (q ++ delta, dist') ∧
        (∀ p ∈ delta, p ∈ ns ∧ g.mask p = false ∧ dist p = -1 ∧
          dist' p = d + 1) ∧
        (∀ p, dist p ≠ -1 → dist' p = dist p) ∧
        (∀ p, dist' p ≠ -1 ↔ p ∈ q ++ delta) ∧
        (q ++ delta).Nodup ∧
        (∀ n ∈ ns, g.mask n = false → dist' n ≠ -1 ∧ dist' n ≤ d + 1) := by
  intro ns
  induction ns with
  | nil =>
    intro q dist hmem hnd hub
    refine ⟨[], dist, by simp [List.foldl], ?_, fun p _ => rfl, ?_, ?_, ?_⟩
    · intro p hp
      cases hp
    · simpa using hmem
    · simpa using hnd
    · intro n hn
      cases hn
  | cons n ns ih =>
    intro q dist hmem hnd hub
    by_cases hc : g.mask n = false ∧ dist n = -1
    · obtain ⟨hmask, hdistn⟩ := hc
      have hne : (d + 1 : Int) ≠ -1 := by omega
      set dist1 : Nat → Int := fun j => if j = n then d + 1 else dist j
        with hdist1
      have hstep : relaxOne g d (q, dist) n = (q ++ [n], dist1) := by
        simp [relaxOne, hmask, hdistn]
      have hnotmem : n ∉ q := fun hmem' =>
        ((hmem n).mpr hmem') hdistn
      have hmem1 : ∀ p, dist1 p ≠ -1 ↔ p ∈ q ++ [n] := by
        intro p
        by_cases hp : p = n
        · subst hp
          simp [hdist1, hne]
        · simp only [hdist1, if_neg hp, List.mem_append,
            List.mem_singleton]
          rw [hmem p]
          tauto
      have hnd1 : (q ++ [n]).Nodup := by
        rw [List.nodup_append]
        refine ⟨hnd, List.nodup_singleton n, ?_⟩
        intro a ha han
        rw [List.mem_singleton] at han
        subst han
        exact hnotmem ha
      have hub1 : ∀ p, dist1 p ≠ -1 → dist1 p ≤ d + 1 := by
        intro p hp
        by_cases hpn : p = n
        · subst hpn
          simp [hdist1]
        · simp only [hdist1, if_neg hpn] at hp ⊢
          exact hub p hp
      obtain ⟨delta, dist', heq, hdelta, hold, hmem', hnd', hlast⟩ :=
        ih (q ++ [n]) dist1 hmem1 hnd1 hub1
      have hd1n : dist1 n = d + 1 := by simp [hdist1]
      refine ⟨n :: delta, dist', ?_, ?_, ?_, ?_, ?_, ?_⟩
      · calc (n :: ns).foldl (relaxOne g d) (q, dist)
            = ns.foldl (relaxOne g d) (q ++ [n], dist1) := by
              rw [List.foldl_cons, hstep]
        _ = (q ++ [n] ++ delta, dist') := heq
        _ = (q ++ (n :: delta), dist') := by
              rw [List.append_assoc]
              rfl
      · intro p hp
        rcases List.mem_cons.mp hp with rfl | hp
        · refine ⟨List.mem_cons_self _ _, hmask, hdistn, ?_⟩
          rw [hold p (by rw [hd1n]; exact hne), hd1n]
        · obtain ⟨hp1, hp2, hp3, hp4⟩ := hdelta p hp
          have hpn : p ≠ n := by
            intro hpe
            subst hpe
            rw [hd1n] at hp3
            exact hne hp3
          refine ⟨List.mem_cons_of_mem _ hp1, hp2, ?_, hp4⟩
          simpa [hdist1, if_neg hpn] using hp3
      · intro p hp
        have hpn : p ≠ n := fun hpe => hp (hpe ▸ hdistn)
        have h1 : dist1 p = dist p := by simp [hdist1, if_neg hpn]
        rw [← h1]
        exact hold p (h1 ▸ hp)
      · intro p
        rw [hmem' p, List.append_assoc]
        rfl
      · have := hnd'
        rwa [List.append_assoc] at this
      · intro m hm hmask'
        rcases List.mem_cons.mp hm with rfl | hm
        · have h1 : dist' m = dist1 m := hold m (by rw [hd1n]; exact hne)
          rw [h1, hd1n]
          exact ⟨hne, le_refl _⟩
        · exact hlast m hm hmask'
    · have hstep : relaxOne g d (q, dist) n = (q, dist) := by
        simp only [relaxOne, if_neg hc]
      obtain ⟨delta, dist', heq, hdelta, hold, hmem', hnd', hlast⟩ :=
        ih q dist hmem hnd hub
      refine ⟨delta, dist', ?_, ?_, hold, hmem', hnd', ?_⟩
      · rw [List.foldl_cons, hstep]
        exact heq
      · intro p hp
        obtain ⟨hp1, hp2, hp3, hp4⟩ := hdelta p hp
        exact ⟨List.mem_cons_of_mem _ hp1, hp2, hp3, hp4⟩
      · intro m hm hmask'
        rcases List.mem_cons.mp hm with rfl | hm
        · have hdm : dist m ≠ -1 := by
            intro hdm
            exact hc ⟨hmask', hdm⟩
          rw [hold m hdm]
          exact ⟨hdm, hub m hdm⟩
        · exact hlast m hm hmask'

theorem queue_facts {q : List Nat} {head : Nat} {i : Nat}
    (hget : q[head]? = some i) :
    head < q.length ∧ q.drop head = i :: q.drop (head + 1) ∧
      q.take (head + 1) = q.take head ++ [i] ∧ i ∈ q := by
  have hgetE : q[head]? = some i := hget
  have hlt : head < q.length := by
    by_contra hle
    push_neg at hle
    rw [List.getElem?_eq_none hle] at hgetE
    cases hgetE
  have hival : q[head] = i := by
    have := List.getElem?_eq_getElem hlt
    rw [this] at hgetE
    exact Option.some.inj hgetE
  have hpend : q.drop head = i :: q.drop (head + 1) := by
    rw [List.drop_eq_getElem_cons hlt, hival]
  have htake : q.take (head + 1) = q.take head ++ [i] := by
    rw [List.take_succ, hgetE]
    rfl
  exact ⟨hlt, hpend, htake,
    List.drop_subset head q (hpend ▸ List.mem_cons_self i _)⟩

/-- One dequeue with `dist i ≥ radius` (the `continue` branch)
preserves the invariant. -/
theorem inv_skip {g : Grid} {radius : Nat} {q : List Nat} {head : Nat}
    {dist : Nat → Int} {i : Nat} (hInv : BfsInv g radius q head dist)
    (hget : q[head]? = some i) (hd : (radius : Int) ≤ dist i) :
    BfsInv g radius q (head + 1) dist := by
  obtain ⟨hlt, hpend, htake, hiq⟩ := queue_facts hget
  refine ⟨hlt, hInv.valid, hInv.nodup, hInv.mem_iff, hInv.seeds, hInv.fgv,
    hInv.bgv, hInv.fgne, ?_, ?_, ?_⟩
  · have := hInv.sorted
    rw [hpend] at this
    exact (List.pairwise_cons.mp this).2
  · intro a ha b hb
    exact hInv.span a (by rw [hpend]; exact List.mem_cons_of_mem _ ha) b hb
  · intro p hp hplt
    rw [htake] at hp
    rcases List.mem_append.mp hp with hp | hp
    · exact hInv.proc p hp hplt
    · rw [List.mem_singleton] at hp
      subst hp
      omega

/-- One dequeue with `dist i < radius` (the expansion branch)
preserves the invariant on the state produced by the neighbour fold. -/
theorem inv_step {g : Grid} {radius : Nat} {q : List Nat} {head : Nat}
    {dist : Nat → Int} {i : Nat} (hInv : BfsInv g radius q head dist)
    (hget : q[head]? = some i) (hd : ¬ (radius : Int) ≤ dist i) :
    BfsInv g radius ((nbrs g i).foldl (relaxOne g (dist i)) (q, dist)).1
      (head + 1) ((nbrs g i).foldl (relaxOne g (dist i)) (q, dist)).2 := by
  obtain ⟨hlt, hpend, htake, hiq⟩ := queue_facts hget
  have hival : i < g.w * g.h := hInv.valid i hiq
  have hid : dist i ≠ -1 := (hInv.mem_iff i).mpr hiq
  have hipend : i ∈ q.drop head := hpend ▸ List.mem_cons_self i _
  have hd0 : 0 ≤ dist i := by
    by_cases hm : g.mask i = true
    · have := hInv.fgv i hm
      by_cases hs : isSeed g i = true
      · rw [this, if_pos hs]
      · rw [this, if_neg hs] at hid ⊢
        exact absurd rfl hid
    · have := (hInv.bgv i (by simpa using hm) hid).1
      omega
  have hub : ∀ p, dist p ≠ -1 → dist p ≤ dist i + 1 := fun p hp =>
    hInv.span i hipend p ((hInv.mem_iff p).mp hp)
  have hDn : ∀ n ∈ nbrs g i, g.mask n = false → (D g n : Int) ≤ dist i + 1 := by
    intro n hn hnm
    have hadj : manh g.w n i = 1 := by
      rw [manh_comm]
      exact (nbr_coords hival hn).2
    by_cases hm : g.mask i = true
    · have hfv := hInv.fgv i hm
      have hs : isSeed g i = true := by
        by_contra hs
        rw [hfv, if_neg hs] at hid
        exact hid rfl
      have hdi : dist i = 0 := by rw [hfv, if_pos hs]
      have hifg : i ∈ fgList g := mem_fgList.mpr ⟨hival, hm⟩
      have := D_le_one_of_fg_adj hifg hadj
      rw [hdi]
      exact_mod_cast by omega
    · have hbg := hInv.bgv i (by simpa using hm) hid
      have hfg : fgList g ≠ [] := hInv.fgne (List.ne_nil_of_mem hiq)
      have := D_le_adj hival hfg hadj
      have hcast : (D g n : Int) ≤ (D g i : Int) + 1 := by exact_mod_cast this
      omega
  obtain ⟨delta, dist', heq, hdelta, hold, hmem', hnd', hlast⟩ :=
    relax_spec g (dist i) hd0 (nbrs g i) q dist hInv.mem_iff hInv.nodup hub
  rw [heq]
  show BfsInv g radius (q ++ delta) (head + 1) dist'
  have holdq : ∀ p ∈ q, dist' p = dist p := fun p hp =>
    hold p ((hInv.mem_iff p).mpr hp)
  have hdeltaval : ∀ p ∈ delta, dist' p = dist i + 1 := fun p hp =>
    (hdelta p hp).2.2.2
  have hdrop : (q ++ delta).drop (head + 1) = q.drop (head + 1) ++ delta :=
    List.drop_append_of_le_length (by omega)
  have htake' : (q ++ delta).take (head + 1) = q.take (head + 1) :=
    List.take_append_of_le_length (by omega)
  have hsubq : ∀ p ∈ q.drop (head + 1), p ∈ q := fun p hp =>
    List.drop_subset _ q hp
  have hgedi : ∀ a ∈ q.drop (head + 1), dist i ≤ dist a := by
    have := hInv.sorted
    rw [hpend] at this
    exact (List.pairwise_cons.mp this).1
  refine ⟨by rw [List.length_append]; omega, ?_, hnd', hmem', ?_, ?_, ?_, ?_,
    ?_, ?_, ?_⟩
  · intro p hp
    rcases List.mem_append.mp hp with hp | hp
    · exact hInv.valid p hp
    · exact nbrs_valid hival (hdelta p hp).1
  · intro p hs
    exact List.mem_append.mpr (Or.inl (hInv.seeds p hs))
  · intro p hm
    by_cases hp : dist p ≠ -1
    · rw [hold p hp]
      exact hInv.fgv p hm
    · push_neg at hp
      have hfv := hInv.fgv p hm
      have hs : isSeed g p ≠ true := by
        intro hs
        rw [if_pos hs] at hfv
        omega
      rw [if_neg hs]
      by_contra hne
      rcases List.mem_append.mp ((hmem' p).mp hne) with hpq | hpq
      · exact ((hInv.mem_iff p).mpr hpq) hp
      · have := (hdelta p hpq).2.1
        rw [hm] at this
        cases this
  · intro p hm hp'
    by_cases hp : dist p ≠ -1
    · rw [hold p hp]
      exact hInv.bgv p hm hp
    · push_neg at hp
      have hpdelta : p ∈ delta := by
        rcases List.mem_append.mp ((hmem' p).mp hp') with hpq | hpd
        · exact absurd ((hInv.mem_iff p).mpr hpq) (by simp [hp])
        · exact hpd
      rw [hdeltaval p hpdelta]
      refine ⟨by omega, by omega, ?_⟩
      exact hDn p (hdelta p hpdelta).1 hm
  · intro hne
    exact hInv.fgne (List.ne_nil_of_mem hiq)
  · rw [hdrop]
    rw [List.pairwise_append]
    refine ⟨?_, ?_, ?_⟩
    · have htail : (q.drop (head + 1)).Pairwise (fun a b => dist a ≤ dist b) := by
        have := hInv.sorted
        rw [hpend] at this
        exact (List.pairwise_cons.mp this).2
      refine List.Pairwise.imp_of_mem ?_ htail
      intro a b ha hb hab
      rw [holdq a (hsubq a ha), holdq b (hsubq b hb)]
      exact hab
    · refine List.pairwise_of_forall_mem_list ?_
      intro a ha b hb
      rw [hdeltaval a ha, hdeltaval b hb]
    · intro a ha b hb
      rw [holdq a (hsubq a ha), hdeltaval b hb]
      exact hub a ((hInv.mem_iff a).mpr (hsubq a ha))
  · intro a ha b hb
    rw [hdrop] at ha
    rcases List.mem_append.mp ha with ha | ha
    · have hda : dist' a = dist a := holdq a (hsubq a ha)
      have hga : dist i ≤ dist a := hgedi a ha
      rcases List.mem_append.mp hb with hb | hb
      · rw [hda, holdq b hb]
        have := hInv.span i hipend b hb
        omega
      · rw [hda, hdeltaval b hb]
        omega
    · have hda : dist' a = dist i + 1 := hdeltaval a ha
      rcases List.mem_append.mp hb with hb | hb
      · rw [hda, holdq b hb]
        have := hub b ((hInv.mem_iff b).mpr hb)
        omega
      · rw [hda, hdeltaval b hb]
        omega
  · intro p hp hplt
    rw [htake', htake] at hp
    rcases List.mem_append.mp hp with hp | hp
    · have hpq : p ∈ q := List.take_subset _ q hp
      have hda : dist' p = dist p := holdq p hpq
      rw [hda] at hplt
      intro n hn hnm
      obtain ⟨h1, h2⟩ := hInv.proc p hp hplt n hn hnm
      rw [hold n h1, hda]
      exact ⟨h1, h2⟩
    · rw [List.mem_singleton] at hp
      subst hp
      intro n hn hnm
      have hda : dist' p = dist p := holdq p hiq
      rw [hda]
      exact hlast n hn hnm

theorem isSeed_iff_mem {g : Grid} {p : Nat} :
    isSeed g p = true ↔ p ∈ seedList g := by
  simp only [isSeed, seedList, List.mem_filter, List.mem_range,
    Bool.and_eq_true, decide_eq_true_eq]
  tauto

/-- The seed phase establishes the invariant. -/
theorem inv_init (g : Grid) (radius : Nat) :
    BfsInv g radius (seedList g) 0 (dist0 g) := by
  have hval0 : ∀ a ∈ seedList g, dist0 g a = 0 := by
    intro a ha
    rw [dist0, if_pos (isSeed_iff_mem.mpr ha)]
  refine ⟨Nat.zero_le _, ?_, ?_, ?_, ?_, ?_, ?_, ?_, ?_, ?_, ?_⟩
  · intro p hp
    exact List.mem_range.mp (List.mem_of_mem_filter hp)
  · exact List.Nodup.filter _ (List.nodup_range _)
  · intro p
    by_cases hs : isSeed g p = true
    · constructor
      · intro _
        exact isSeed_iff_mem.mp hs
      · intro _
        rw [dist0, if_pos hs]
        omega
    · constructor
      · intro hne
        rw [dist0, if_neg hs] at hne
        exact absurd rfl hne
      · intro hmem
        exact absurd (isSeed_iff_mem.mpr hmem) hs
  · intro p hs
    exact isSeed_iff_mem.mp hs
  · intro p _
    rfl
  · intro p hm hne
    exfalso
    rw [dist0] at hne
    by_cases hs : isSeed g p = true
    · have : g.mask p = true := by
        simp only [isSeed, Bool.and_eq_true] at hs
        exact hs.1.2
      rw [hm] at this
      cases this
    · rw [if_neg hs] at hne
      exact hne rfl
  · intro hne
    obtain ⟨a, ha⟩ := List.exists_mem_of_ne_nil _ hne
    have hs := isSeed_iff_mem.mpr ha
    simp only [isSeed, Bool.and_eq_true, decide_eq_true_eq] at hs
    exact List.ne_nil_of_mem (mem_fgList.mpr ⟨hs.1.1, hs.1.2⟩)
  · rw [List.drop_zero]
    refine List.pairwise_of_forall_mem_list ?_
    intro a ha b hb
    rw [hval0 a ha, hval0 b hb]
  · intro a ha b hb
    rw [List.drop_zero] at ha
    rw [hval0 a ha, hval0 b hb]
    omega
  · intro p hp
    rw [List.take_zero] at hp
    cases hp

theorem length_le_area {g : Grid} {radius : Nat} {q : List Nat} {head : Nat}
    {dist : Nat → Int} (hInv : BfsInv g radius q head dist) :
    q.length ≤ g.w * g.h := by
  have h1 : q.toFinset.card = q.length :=
    List.toFinset_card_of_nodup hInv.nodup
  have h2 : q.toFinset ⊆ Finset.range (g.w * g.h) := by
    intro x hx
    rw [List.mem_toFinset] at hx
    rw [Finset.mem_range]
    exact hInv.valid x hx
  have h3 := Finset.card_le_card h2
  rw [h1, Finset.card_range] at h3
  exact h3

/-- Running the loop with enough fuel reaches a completed state (every
queued pixel dequeued) that still satisfies the invariant. -/
theorem bfs_run (g : Grid) (radius : Nat) :
    ∀ (fuel : Nat) (q : List Nat) (head : Nat) (dist : Nat → Int),
      BfsInv g radius q head dist →
      g.w * g.h + 1 ≤ fuel + head →
      ∃ q' head' dist',
        bfsAux g radius fuel q head dist = (q', head', dist') ∧
        BfsInv g radius q' head' dist' ∧ q'.length ≤ head' := by
  intro fuel
  induction fuel with
  | zero =>
    intro q head dist hInv hf
    have hlen : q.length ≤ g.w * g.h := length_le_area hInv
    exact ⟨q, head, dist, rfl, hInv, by omega⟩
  | succ fuel ih =>
    intro q head dist hInv hf
    rcases hget : q[head]? with _ | i
    · have hlen : q.length ≤ head := by
        by_contra hgt
        push_neg at hgt
        rw [List.getElem?_eq_getElem hgt] at hget
        cases hget
      exact ⟨q, head, dist, by simp [bfsAux, hget], hInv, hlen⟩
    · by_cases hd : (radius : Int) ≤ dist i
      · obtain ⟨q', h', d', heq, hi', hl'⟩ :=
          ih q (head + 1) dist (inv_skip hInv hget hd) (by omega)
        refine ⟨q', h', d', ?_, hi', hl'⟩
        rw [show bfsAux g radius (fuel + 1) q head dist
            = bfsAux g radius fuel q (head + 1) dist from by
          simp [bfsAux, hget, if_pos hd]]
        exact heq
      · have hstep := inv_step hInv hget hd
        obtain ⟨q', h', d', heq, hi', hl'⟩ :=
          ih ((nbrs g i).foldl (relaxOne g (dist i)) (q, dist)).1 (head + 1)
            ((nbrs g i).foldl (relaxOne g (dist i)) (q, dist)).2 hstep
            (by omega)
        refine ⟨q', h', d', ?_, hi', hl'⟩
        rw [show bfsAux g radius (fuel + 1) q head dist
            = bfsAux g radius fuel
                ((nbrs g i).foldl (relaxOne g (dist i)) (q, dist)).1 (head + 1)
                ((nbrs g i).foldl (relaxOne g (dist i)) (q, dist)).2 from by
          simp [bfsAux, hget, if_neg hd]]
        exact heq

theorem dist_step_lt {a b : Nat} (h : a < b) :
    Nat.dist (a + 1) b + 1 = Nat.dist a b := by
  simp only [Nat.dist]
  omega

theorem dist_step_gt {a b : Nat} (h : b < a) :
    Nat.dist (a - 1) b + 1 = Nat.dist a b := by
  simp only [Nat.dist]
  omega

/-- From any pixel at positive Manhattan distance from `f`, one grid
step towards `f` decreases the distance by one; the step stays in
bounds and is a neighbour in both directions. -/
theorem step_toward {g : Grid} {p f : Nat} (hp : p < g.w * g.h)
    (hf : f < g.w * g.h) (h1 : 1 ≤ manh g.w p f) :
    ∃ q0, q0 < g.w * g.h ∧ manh g.w p q0 = 1 ∧
      manh g.w q0 f + 1 = manh g.w p f ∧ q0 ∈ nbrs g p ∧ p ∈ nbrs g q0 := by
  have hw := (grid_pos hp).1
  obtain ⟨hpx, hpy⟩ := coord_lt hp
  obtain ⟨hfx, hfy⟩ := coord_lt hf
  rcases Nat.lt_trichotomy (p % g.w) (f % g.w) with hx | hx | hx
  · -- step right
    have hcond : p % g.w + 1 < g.w := by omega
    have hqmem : p + 1 ∈ nbrs g p := mem_nbrs_right hp hcond
    have hqval : p + 1 < g.w * g.h := nbrs_valid hp hqmem
    have hc := nbr_right_coords (w := g.w) (i := p) hcond
    refine ⟨p + 1, hqval, (nbr_coords hp hqmem).2, ?_, hqmem, ?_⟩
    · rw [manh, manh, hc.1, hc.2]
      have := dist_step_lt hx
      omega
    · have hmem := mem_nbrs_left hqval (by rw [hc.1]; omega)
      rwa [Nat.add_sub_cancel] at hmem
  · rcases Nat.lt_trichotomy (p / g.w) (f / g.w) with hy | hy | hy
    · -- step down
      have hcond : p / g.w + 1 < g.h := by omega
      have hqmem : p + g.w ∈ nbrs g p := mem_nbrs_down hp hcond
      have hqval : p + g.w < g.w * g.h := nbrs_valid hp hqmem
      have hc := nbr_down_coords (w := g.w) (i := p) hw
      refine ⟨p + g.w, hqval, (nbr_coords hp hqmem).2, ?_, hqmem, ?_⟩
      · rw [manh, manh, hc.1, hc.2, hx]
        have := dist_step_lt hy
        simp only [Nat.dist_self]
        omega
      · have hmem := mem_nbrs_up hqval (by rw [hc.2]; exact Nat.succ_pos _)
        rwa [Nat.add_sub_cancel] at hmem
    · exfalso
      rw [manh, hx, hy, Nat.dist_self, Nat.dist_self] at h1
      omega
    · -- step up
      have hcond : 0 < p / g.w := Nat.lt_of_le_of_lt (Nat.zero_le _) hy
      have hqmem : p - g.w ∈ nbrs g p := mem_nbrs_up hp hcond
      have hqval : p - g.w < g.w * g.h := nbrs_valid hp hqmem
      have hc := nbr_up_coords (w := g.w) (i := p) hw hcond
      have hpw : g.w ≤ p := by
        have hd := idx_decomp g.w p hw
        have hge : g.w ≤ (p / g.w) * g.w := by
          calc g.w = 1 * g.w := (Nat.one_mul _).symm
          _ ≤ (p / g.w) * g.w := Nat.mul_le_mul_right _ hcond
        omega
      refine ⟨p - g.w, hqval, (nbr_coords hp hqmem).2, ?_, hqmem, ?_⟩
      · rw [manh, manh, hc.1, hc.2, hx]
        have := dist_step_gt hy
        simp only [Nat.dist_self]
        omega
      · have hmem := mem_nbrs_down hqval (by rw [hc.2]; omega)
        rwa [Nat.sub_add_cancel hpw] at hmem
  · -- step left
    have hcond : 0 < p % g.w := Nat.lt_of_le_of_lt (Nat.zero_le _) hx
    have hqmem : p - 1 ∈ nbrs g p := mem_nbrs_left hp hcond
    have hqval : p - 1 < g.w * g.h := nbrs_valid hp hqmem
    have hc := nbr_left_coords (w := g.w) (i := p) hw hcond
    have hp1 : 1 ≤ p := Nat.lt_of_lt_of_le hcond (Nat.mod_le p g.w)
    refine ⟨p - 1, hqval, (nbr_coords hp hqmem).2, ?_, hqmem, ?_⟩
    · rw [manh, manh, hc.1, hc.2]
      have := dist_step_gt hx
      omega
    · have hmem := mem_nbrs_right hqval (by rw [hc.1]; omega)
      rwa [Nat.sub_add_cancel hp1] at hmem

/-- A foreground pixel with a background in-bounds neighbour passes the
source's edge test. -/
theorem isEdge_of_bg_nbr {g : Grid} {i n : Nat} (hi : i < g.w * g.h)
    (hn : n ∈ nbrs g i) (hbg : g.mask n = false) : isEdgeb g i = true := by
  have hw := (grid_pos hi).1
  have hh := (grid_pos hi).2
  simp only [isEdgeb, Bool.or_eq_true, Bool.and_eq_true, decide_eq_true_eq,
    Bool.not_eq_true']
  rcases mem_nbrs_cases hn with ⟨h1, _, _, rfl⟩ | ⟨h1, _, rfl⟩ |
    ⟨_, h1, _, rfl⟩ | ⟨_, h1, rfl⟩
  · exact Or.inl (Or.inl (Or.inl ⟨h1, hbg⟩))
  · exact Or.inl (Or.inl (Or.inr ⟨by omega, hbg⟩))
  · exact Or.inl (Or.inr ⟨h1, hbg⟩)
  · exact Or.inr ⟨by omega, hbg⟩

/-- Completeness at a finished state: every background pixel whose true
distance is within the radius carries exactly that distance. -/
theorem done_complete {g : Grid} {radius : Nat} {q : List Nat} {head : Nat}
    {dist : Nat → Int} (hInv : BfsInv g radius q head dist)
    (hdone : q.length ≤ head) (hfg : fgList g ≠ []) :
    ∀ k, k ≤ radius → ∀ p, p < g.w * g.h → g.mask p = false →
      D g p = k → dist p = (k : Int) := by
  have hall : ∀ p', p' ∈ q → p' ∈ q.take head := by
    intro p' hp'
    rwa [List.take_of_length_le hdone]
  intro k
  induction k using Nat.strong_induction_on with
  | _ k ih =>
    intro hk p hpv hbg hD
    have hpos : 1 ≤ D g p := D_pos hpv hbg hfg
    obtain ⟨f, hfmem, hDf⟩ := D_exists hpv hfg
    obtain ⟨hfv, hfmask⟩ := mem_fgList.mp hfmem
    have hmanh : manh g.w p f = k := by rw [← hDf, hD]
    obtain ⟨q0, hq0v, hpq0, hq0f, hq0nb, hpnb⟩ :=
      step_toward hpv hfv (by omega)
    by_cases hm : g.mask q0 = true
    · -- the step lands on a foreground pixel: k = 1 and q0 is a seed
      have hq0fg : q0 ∈ fgList g := mem_fgList.mpr ⟨hq0v, hm⟩
      have hk1 : k = 1 := by
        have := D_le hq0fg (p := p)
        rw [hpq0, hD] at this
        omega
      have hseed : isSeed g q0 = true := by
        simp only [isSeed, Bool.and_eq_true, decide_eq_true_eq]
        exact ⟨⟨hq0v, hm⟩, isEdge_of_bg_nbr hq0v hpnb hbg⟩
      have hq0q : q0 ∈ q := hInv.seeds q0 hseed
      have hdq0 : dist q0 = 0 := by
        rw [hInv.fgv q0 hm, if_pos hseed]
      have hrad : (0 : Int) < (radius : Int) := by
        have : 1 ≤ radius := by omega
        exact_mod_cast this
      obtain ⟨hne, hle⟩ := hInv.proc q0 (hall q0 hq0q)
        (by rw [hdq0]; exact hrad) p hpnb hbg
      have hbgp := hInv.bgv p hbg hne
      have hDcast : ((D g p : Int)) ≤ dist p := hbgp.2.2
      rw [hD, hk1] at hDcast
      rw [hdq0] at hle
      rw [hk1]
      omega
    · -- the step stays in the background: recurse at distance k - 1
      have hm' : g.mask q0 = false := by simpa using hm
      have hk2 : 2 ≤ k := by
        by_contra hlt
        push_neg at hlt
        have hk1 : k = 1 := by omega
        have h0 : manh g.w q0 f = 0 := by omega
        have : q0 = f := manh_eq_zero hq0v hfv h0
        rw [this, hfmask] at hm'
        cases hm'
      have hDq0 : D g q0 = k - 1 := by
        have hle : D g q0 ≤ k - 1 := by
          have := D_le (p := q0) hfmem
          omega
        have hge : k ≤ D g q0 + 1 := by
          have := D_le_adj hq0v hfg hpq0
          omega
        omega
      have hdq0 : dist q0 = ((k - 1 : Nat) : Int) :=
        ih (k - 1) (by omega) (by omega) q0 hq0v hm' hDq0
      have hq0q : q0 ∈ q := by
        refine (hInv.mem_iff q0).mp ?_
        rw [hdq0]
        have : 1 ≤ k - 1 := by omega
        have hcast : (1 : Int) ≤ ((k - 1 : Nat) : Int) := by exact_mod_cast this
        omega
      have hlt : dist q0 < (radius : Int) := by
        rw [hdq0]
        have h1 : k - 1 < radius := by omega
        exact_mod_cast h1
      obtain ⟨hne, hle⟩ := hInv.proc q0 (hall q0 hq0q) hlt p hpnb hbg
      have hbgp := hInv.bgv p hbg hne
      have hDcast : ((D g p : Int)) ≤ dist p := hbgp.2.2
      rw [hD] at hDcast
      rw [hdq0] at hle
      have hc1 : ((k - 1 : Nat) : Int) = (k : Int) - 1 := by
        have : 1 ≤ k := by omega
        omega
      omega

/-- The master characterization of the final distance buffer, for every
grid, radius and pixel. -/
theorem distances_eq (g : Grid) (radius : Nat) (p : Nat) :
    distances g radius p =
      if p < g.w * g.h then
        if g.mask p = true then (if isSeed g p then (0 : Int) else -1)
        else if fgList g ≠ [] ∧ D g p ≤ radius then (D g p : Int) else -1
      else -1 := by
  obtain ⟨q', h', d', heq, hInv, hdone⟩ :=
    bfs_run g radius (g.w * g.h + 1) (seedList g) 0 (dist0 g)
      (inv_init g radius) (by omega)
  have hdist : distances g radius = d' := by
    rw [distances, bfsState, heq]
  rw [hdist]
  by_cases hp : p < g.w * g.h
  · rw [if_pos hp]
    by_cases hm : g.mask p = true
    · rw [if_pos hm]
      exact hInv.fgv p hm
    · have hm' : g.mask p = false := by simpa using hm
      rw [if_neg hm]
      by_cases hfgD : fgList g ≠ [] ∧ D g p ≤ radius
      · rw [if_pos hfgD]
        exact done_complete hInv hdone hfgD.1 (D g p) hfgD.2 p hp hm' rfl
      · rw [if_neg hfgD]
        by_contra hne
        by_cases hfg : fgList g = []
        · have hq'ne : q' ≠ [] :=
            List.ne_nil_of_mem ((hInv.mem_iff p).mp hne)
          exact hInv.fgne hq'ne hfg
        · have hD : radius < D g p := by
            rcases not_and_or.mp hfgD with hc | hc
            · exact absurd hfg (by simpa using hc)
            · omega
          have hbgp := hInv.bgv p hm' hne
          have h1 := hbgp.2.1
          have h2 := hbgp.2.2
          have : ((D g p : Int)) ≤ (radius : Int) := le_trans h2 h1
          have : D g p ≤ radius := by exact_mod_cast this
          omega
  · rw [if_neg hp]
    by_contra hne
    exact hp (hInv.valid p ((hInv.mem_iff p).mp hne))

/-- The painted ring is exactly the background band at distance
`1 .. radius` from the foreground. -/
theorem ring_char (g : Grid) (radius : Nat) (hfg : fgList g ≠ []) (i : Nat) :
    ringPainted g radius i = true ↔
      i < g.w * g.h ∧ g.mask i = false ∧ 1 ≤ D g i ∧ D g i ≤ radius := by
  rw [ringPainted]
  simp only [Bool.and_eq_true, decide_eq_true_eq]
  constructor
  · rintro ⟨⟨hi, hpos⟩, hle⟩
    rw [distances_eq, if_pos hi] at hpos
    by_cases hm : g.mask i = true
    · rw [if_pos hm] at hpos
      split at hpos <;> omega
    · have hm' : g.mask i = false := by simpa using hm
      rw [if_neg hm] at hpos
      by_cases hfgD : fgList g ≠ [] ∧ D g i ≤ radius
      · rw [if_pos hfgD] at hpos
        refine ⟨hi, hm', ?_, hfgD.2⟩
        exact_mod_cast hpos
      · rw [if_neg hfgD] at hpos
        omega
  · rintro ⟨hi, hm, h1, h2⟩
    rw [distances_eq, if_pos hi, if_neg (by simp [hm]), if_pos ⟨hfg, h2⟩]
    refine ⟨⟨hi, ?_⟩, ?_⟩
    · exact_mod_cast h1
    · exact_mod_cast h2

/-- C1: for every mask with at least one foreground pixel and every
positive integer radius, the set of pixels painted by the ring generator
is exactly the set of background pixels whose minimum 4-connected grid
distance to the nearest foreground pixel lies in `[1, radius]`; in
particular no foreground pixel is ever painted. -/
theorem C1_ring_is_exact_distance_band (g : Grid) (radius : Nat)
    (hfg : fgList g ≠ []) (hr : 1 ≤ radius) (i : Nat) :
    ringPainted g radius i = true ↔
      i < g.w * g.h ∧ g.mask i = false ∧ 1 ≤ D g i ∧ D g i ≤ radius :=
  ring_char g radius hfg i

/-- C2: with the mask fixed, growing the radius only adds ring pixels:
every pixel painted at radius `r1` is still painted at any radius
`r2 > r1`. -/
theorem C2_ring_monotone_in_radius (g : Grid) (r1 r2 : Nat) (h12 : r1 < r2)
    (i : Nat) (hp : ringPainted g r1 i = true) :
    ringPainted g r2 i = true := by
  by_cases hfg : fgList g = []
  · exfalso
    rw [ringPainted] at hp
    simp only [Bool.and_eq_true, decide_eq_true_eq] at hp
    obtain ⟨⟨hi, hpos⟩, _⟩ := hp
    rw [distances_eq, if_pos hi] at hpos
    by_cases hm : g.mask i = true
    · rw [if_pos hm] at hpos
      have : fgList g ≠ [] := List.ne_nil_of_mem (mem_fgList.mpr ⟨hi, hm⟩)
      exact this hfg
    · rw [if_neg hm, if_neg (by simp [hfg])] at hpos
      omega
  · have h := (ring_char g r1 hfg i).mp hp
    exact (ring_char g r2 hfg i).mpr ⟨h.1, h.2.1, h.2.2.1, by omega⟩

/-- C3: with radius `0` nothing is painted and the output image is
fully transparent at every pixel. -/
theorem C3_radius_zero_paints_nothing (g : Grid) (color : RGBA) (i : Nat) :
    ringPainted g 0 i = false ∧ ringImage g 0 color i = ⟨0, 0, 0, 0⟩ := by
  constructor
  · by_contra hne
    rw [Bool.not_eq_false, ringPainted] at hne
    simp only [Bool.and_eq_true, decide_eq_true_eq, Nat.cast_zero] at hne
    omega
  · rw [ringImage, if_neg]
    rintro ⟨_, h1, h2⟩
    rw [Nat.cast_zero] at h2
    omega

section TenMachinery

theorem bfsAux_stuck {g : Grid} {radius : Nat} {q : List Nat} {head : Nat}
    {dist : Nat → Int} (hget : q[head]? = none) :
    ∀ fuel, bfsAux g radius fuel q head dist = (q, head, dist) := by
  intro fuel
  cases fuel with
  | zero => rfl
  | succ fuel => simp [bfsAux, hget]

theorem bfsAux_inv (g : Grid) (radius : Nat) :
    ∀ (fuel : Nat) (q : List Nat) (head : Nat) (dist : Nat → Int),
      BfsInv g radius q head dist →
      BfsInv g radius (bfsAux g radius fuel q head dist).1
        (bfsAux g radius fuel q head dist).2.1
        (bfsAux g radius fuel q head dist).2.2 := by
  intro fuel
  induction fuel with
  | zero =>
    intro q head dist h
    exact h
  | succ fuel ih =>
    intro q head dist hInv
    rcases hget : q[head]? with _ | i
    · rw [bfsAux_stuck hget]
      exact hInv
    · by_cases hd : (radius : Int) ≤ dist i
      · rw [show bfsAux g radius (fuel + 1) q head dist
            = bfsAux g radius fuel q (head + 1) dist from by
          simp [bfsAux, hget, if_pos hd]]
        exact ih q (head + 1) dist (inv_skip hInv hget hd)
      · rw [show bfsAux g radius (fuel + 1) q head dist
            = bfsAux g radius fuel
                ((nbrs g i).foldl (relaxOne g (dist i)) (q, dist)).1 (head + 1)
                ((nbrs g i).foldl (relaxOne g (dist i)) (q, dist)).2 from by
          simp [bfsAux, hget, if_neg hd]]
        exact ih _ _ _ (inv_step hInv hget hd)

theorem bfsAux_add (g : Grid) (radius : Nat) :
    ∀ (a b : Nat) (q : List Nat) (head : Nat) (dist : Nat → Int),
      bfsAux g radius (a + b) q head dist =
        bfsAux g radius b (bfsAux g radius a q head dist).1
          (bfsAux g radius a q head dist).2.1
          (bfsAux g radius a q head dist).2.2 := by
  intro a
  induction a with
  | zero =>
    intro b q head dist
    rw [Nat.zero_add]
    rfl
  | succ a ih =>
    intro b q head dist
    rw [Nat.succ_add]
    rcases hget : q[head]? with _ | i
    · rw [bfsAux_stuck hget, bfsAux_stuck hget, bfsAux_stuck hget]
    · by_cases hd : (radius : Int) ≤ dist i
      · rw [show bfsAux g radius (a + b + 1) q head dist
            = bfsAux g radius (a + b) q (head + 1) dist from by
          simp [bfsAux, hget, if_pos hd]]
        rw [show bfsAux g radius (a + 1) q head dist
            = bfsAux g radius a q (head + 1) dist from by
          simp [bfsAux, hget, if_pos hd]]
        exact ih b q (head + 1) dist
      · rw [show bfsAux g radius (a + b + 1) q head dist
            = bfsAux g radius (a + b)
                ((nbrs g i).foldl (relaxOne g (dist i)) (q, dist)).1 (head + 1)
                ((nbrs g i).foldl (relaxOne g (dist i)) (q, dist)).2 from by
          simp [bfsAux, hget, if_neg hd]]
        rw [show bfsAux g radius (a + 1) q head dist
            = bfsAux g radius a
                ((nbrs g i).foldl (relaxOne g (dist i)) (q, dist)).1 (head + 1)
                ((nbrs g i).foldl (relaxOne g (dist i)) (q, dist)).2 from by
          simp [bfsAux, hget, if_neg hd]]
        exact ih b _ _ _

theorem fold_preserves_assigned (g : Grid) (d : Int) :
    ∀ (ns : List Nat) (q : List Nat) (dist : Nat → Int) (p : Nat),
      dist p ≠ -1 → (ns.foldl (relaxOne g d) (q, dist)).2 p = dist p := by
  intro ns
  induction ns with
  | nil =>
    intro q dist p _
    rfl
  | cons n ns ih =>
    intro q dist p hp
    rw [List.foldl_cons]
    by_cases hc : g.mask n = false ∧ dist n = -1
    · have hpn : p ≠ n := fun he => hp (he ▸ hc.2)
      rw [show relaxOne g d (q, dist) n
          = (q ++ [n], fun j => if j = n then d + 1 else dist j) from by
        simp [relaxOne, hc.1, hc.2]]
      have h2 : (fun j => if j = n then d + 1 else dist j) p ≠ -1 := by
        simp only [if_neg hpn]
        exact hp
      rw [ih _ _ p h2]
      simp [if_neg hpn]
    · rw [show relaxOne g d (q, dist) n = (q, dist) from by
        simp only [relaxOne, if_neg hc]]
      exact ih _ _ p hp

theorem bfsAux_preserves_assigned (g : Grid) (radius : Nat) :
    ∀ (fuel : Nat) (q : List Nat) (head : Nat) (dist : Nat → Int) (p : Nat),
      dist p ≠ -1 →
      (bfsAux g radius fuel q head dist).2.2 p = dist p := by
  intro fuel
  induction fuel with
  | zero =>
    intro q head dist p _
    rfl
  | succ fuel ih =>
    intro q head dist p hp
    rcases hget : q[head]? with _ | i
    · rw [bfsAux_stuck hget]
    · by_cases hd : (radius : Int) ≤ dist i
      · rw [show bfsAux g radius (fuel + 1) q head dist
            = bfsAux g radius fuel q (head + 1) dist from by
          simp [bfsAux, hget, if_pos hd]]
        exact ih q (head + 1) dist p hp
      · rw [show bfsAux g radius (fuel + 1) q head dist
            = bfsAux g radius fuel
                ((nbrs g i).foldl (relaxOne g (dist i)) (q, dist)).1 (head + 1)
                ((nbrs g i).foldl (relaxOne g (dist i)) (q, dist)).2 from by
          simp [bfsAux, hget, if_neg hd]]
        have hfp := fold_preserves_assigned g (dist i) (nbrs g i) q dist p hp
        rw [ih _ _ _ p (by rw [hfp]; exact hp), hfp]

theorem bfsState_stable (g : Grid) (radius : Nat) (k : Nat) :
    bfsState g radius (g.w * g.h + 1 + k) = bfsState g radius (g.w * g.h + 1) := by
  obtain ⟨q', h', d', heq, hInv, hdone⟩ :=
    bfs_run g radius (g.w * g.h + 1) (seedList g) 0 (dist0 g)
      (inv_init g radius) (by omega)
  rw [bfsState, bfsAux_add, bfsState]
  rw [show bfsAux g radius (g.w * g.h + 1) (seedList g) 0 (dist0 g)
      = (q', h', d') from heq]
  exact bfsAux_stuck (List.getElem?_eq_none hdone) k

end TenMachinery

/-- C10: throughout the BFS, every distance entry is either the
sentinel `-1` or lies in `[0, radius]`; the queue never contains a
pixel twice; an assigned distance is never overwritten by later steps;
the head pointer never exceeds `w * h` (so there are at most `w * h`
dequeues); and the loop has fully terminated after `w * h + 1` dequeue
steps. -/
theorem C10_bfs_distance_and_termination_invariants (g : Grid)
    (radius : Nat) (fuel : Nat) :
    (∀ p, (bfsState g radius fuel).2.2 p = -1 ∨
      (0 ≤ (bfsState g radius fuel).2.2 p ∧
        (bfsState g radius fuel).2.2 p ≤ (radius : Int))) ∧
    (bfsState g radius fuel).1.Nodup ∧
    (∀ k p, (bfsState g radius fuel).2.2 p ≠ -1 →
      (bfsState g radius (fuel + k)).2.2 p =
        (bfsState g radius fuel).2.2 p) ∧
    (bfsState g radius fuel).2.1 ≤ g.w * g.h ∧
    (∀ k, bfsState g radius (g.w * g.h + 1 + k) =
      bfsState g radius (g.w * g.h + 1)) := by
  have hInv : BfsInv g radius (bfsState g radius fuel).1
      (bfsState g radius fuel).2.1 (bfsState g radius fuel).2.2 :=
    bfsAux_inv g radius fuel (seedList g) 0 (dist0 g) (inv_init g radius)
  refine ⟨?_, hInv.nodup, ?_, ?_, bfsState_stable g radius⟩
  · intro p
    by_cases hp : (bfsState g radius fuel).2.2 p = -1
    · exact Or.inl hp
    · right
      by_cases hm : g.mask p = true
      · have hfv := hInv.fgv p hm
        rw [hfv] at hp ⊢
        by_cases hs : isSeed g p = true
        · rw [if_pos hs]
          exact ⟨le_refl _, Int.natCast_nonneg radius⟩
        · rw [if_neg hs] at hp
          exact absurd rfl hp
      · have := hInv.bgv p (by simpa using hm) hp
        exact ⟨by omega, this.2.1⟩
  · intro k p hp
    rw [bfsState, bfsAux_add]
    exact bfsAux_preserves_assigned g radius k _ _ _ p hp
  · exact le_trans hInv.hd_le (length_le_area hInv)

theorem C1_witness :
    fgList gW ≠ [] ∧ 1 ≤ 1 ∧
      (ringPainted gW 1 3 = true ↔
        3 < gW.w * gW.h ∧ gW.mask 3 = false ∧ 1 ≤ D gW 3 ∧ D gW 3 ≤ 1) :=
  ⟨by decide, by decide,
    C1_ring_is_exact_distance_band gW 1 (by decide) (by decide) 3⟩

theorem C2_witness :
    1 < 2 ∧ ringPainted gW 1 3 = true ∧ ringPainted gW 2 3 = true :=
  ⟨by decide, by decide,
    C2_ring_monotone_in_radius gW 1 2 (by decide) 3 (by decide)⟩

theorem C10_witness :
    (bfsState gW 1 2).2.2 4 ≠ -1 ∧
      (bfsState gW 1 (2 + 3)).2.2 4 = (bfsState gW 1 2).2.2 4 :=
  ⟨by decide,
    (C10_bfs_distance_and_termination_invariants gW 1 2).2.2.1 3 4
      (by decide)⟩

section Scenario

theorem g4_mask_iff (i : Nat) :
    g4.mask i = true ↔
      45 ≤ i % 100 ∧ i % 100 ≤ 55 ∧ 45 ≤ i / 100 ∧ i / 100 ≤ 55 := by
  simp [g4]

theorem g4_fg_ne : fgList g4 ≠ [] :=
  List.ne_nil_of_mem
    ((mem_fgList (g := g4) (f := 4545)).mpr ⟨by decide, by decide⟩)

/-- The exact distance transform of the square mask: the L1 distance
to the square, written with truncated subtraction. -/
theorem g4_D (x y : Nat) (hx : x < 100) (hy : y < 100) :
    D g4 (y * 100 + x) =
      ((45 - x) + (x - 55)) + ((45 - y) + (y - 55)) := by
  have hw : g4.w = 100 := rfl
  have hpm : (y * 100 + x) % 100 = x := pack_mod y hx
  have hpd : (y * 100 + x) / 100 = y := pack_div y hx
  have hfx1 : 45 ≤ min 55 (max 45 x) ∧ min 55 (max 45 x) ≤ 55 := by omega
  have hfy1 : 45 ≤ min 55 (max 45 y) ∧ min 55 (max 45 y) ≤ 55 := by omega
  have hfxlt : min 55 (max 45 x) < 100 := by omega
  have hfylt : min 55 (max 45 y) < 100 := by omega
  have hfm : (min 55 (max 45 y)) * 100 + min 55 (max 45 x) % 100 = 0 ∨ True :=
    Or.inr trivial
  have hcm := pack_mod (w := 100) (x := min 55 (max 45 x)) (min 55 (max 45 y))
    hfxlt
  have hcd := pack_div (w := 100) (x := min 55 (max 45 x)) (min 55 (max 45 y))
    hfxlt
  have hf : (min 55 (max 45 y)) * 100 + min 55 (max 45 x) ∈ fgList g4 := by
    rw [mem_fgList]
    constructor
    · exact pack_lt hfxlt hfylt
    · rw [g4_mask_iff, hcm, hcd]
      omega
  apply le_antisymm
  · have hle := D_le (g := g4) (p := y * 100 + x) hf
    rw [manh, hw, hpm, hpd, hcm, hcd] at hle
    refine le_trans hle ?_
    simp only [Nat.dist]
    omega
  · apply le_foldr_min
    · show _ ≤ g4.w + g4.h
      have : g4.w + g4.h = 200 := rfl
      omega
    · intro m hm
      obtain ⟨f, hfmem, rfl⟩ := List.mem_map.mp hm
      obtain ⟨hfv, hfmask⟩ := mem_fgList.mp hfmem
      rw [g4_mask_iff] at hfmask
      rw [manh, hw, hpm, hpd]
      simp only [Nat.dist]
      generalize f % 100 = fx at *
      generalize f / 100 = fy at *
      omega

/-- The painted set of the scenario, in coordinates. -/
theorem g4_painted_iff (x y : Nat) (hx : x < 100) (hy : y < 100) :
    ringPainted g4 5 (y * 100 + x) = true ↔
      ¬ (45 ≤ x ∧ x ≤ 55 ∧ 45 ≤ y ∧ y ≤ 55) ∧
      1 ≤ ((45 - x) + (x - 55)) + ((45 - y) + (y - 55)) ∧
      ((45 - x) + (x - 55)) + ((45 - y) + (y - 55)) ≤ 5 := by
  rw [ring_char g4 5 g4_fg_ne, g4_D x y hx hy]
  have hpm : (y * 100 + x) % 100 = x := pack_mod y hx
  have hpd : (y * 100 + x) / 100 = y := pack_div y hx
  have hlt : y * 100 + x < g4.w * g4.h := pack_lt hx hy
  constructor
  · rintro ⟨_, hmask, h1, h2⟩
    refine ⟨?_, h1, h2⟩
    intro hin
    have : g4.mask (y * 100 + x) = true := by
      rw [g4_mask_iff, hpm, hpd]
      omega
    rw [this] at hmask
    cases hmask
  · rintro ⟨hout, h1, h2⟩
    refine ⟨hlt, ?_, h1, h2⟩
    by_contra hmask
    have : g4.mask (y * 100 + x) = true := by
      cases hgm : g4.mask (y * 100 + x)
      · exact absurd hgm hmask
      · rfl
    rw [g4_mask_iff, hpm, hpd] at this
    omega

/-- C4: in the 100×100 scenario with a foreground square with corners
(45,45)-(55,55) and radius 5: no pixel of the square is painted; on
each of the four sides, the full strip of width 5 adjacent to the
square is painted; and the next pixel out (grid distance 6) is not
painted — the ring is a band of width exactly 5 around the square. -/
theorem C4_square_scenario :
    (∀ x y : Nat, 45 ≤ x → x ≤ 55 → 45 ≤ y → y ≤ 55 →
      ringPainted g4 5 (y * 100 + x) = false) ∧
    (∀ x : Nat, 45 ≤ x → x ≤ 55 → ∀ k : Nat, 1 ≤ k → k ≤ 5 →
      ringPainted g4 5 ((45 - k) * 100 + x) = true ∧
      ringPainted g4 5 ((55 + k) * 100 + x) = true ∧
      ringPainted g4 5 (x * 100 + (45 - k)) = true ∧
      ringPainted g4 5 (x * 100 + (55 + k)) = true) ∧
    (∀ x : Nat, 45 ≤ x → x ≤ 55 →
      ringPainted g4 5 (39 * 100 + x) = false ∧
      ringPainted g4 5 (61 * 100 + x) = false ∧
      ringPainted g4 5 (x * 100 + 39) = false ∧
      ringPainted g4 5 (x * 100 + 61) = false) := by
  refine ⟨?_, ?_, ?_⟩
  · intro x y hx1 hx2 hy1 hy2
    cases hb : ringPainted g4 5 (y * 100 + x)
    · rfl
    · exfalso
      have := (g4_painted_iff x y (by omega) (by omega)).mp hb
      exact this.1 ⟨hx1, hx2, hy1, hy2⟩
  · intro x hx1 hx2 k hk1 hk2
    refine ⟨?_, ?_, ?_, ?_⟩
    · exact (g4_painted_iff x (45 - k) (by omega) (by omega)).mpr
        (by constructor
            · intro h
              omega
            · omega)
    · exact (g4_painted_iff x (55 + k) (by omega) (by omega)).mpr
        (by constructor
            · intro h
              omega
            · omega)
    · exact (g4_painted_iff (45 - k) x (by omega) (by omega)).mpr
        (by constructor
            · intro h
              omega
            · omega)
    · exact (g4_painted_iff (55 + k) x (by omega) (by omega)).mpr
        (by constructor
            · intro h
              omega
            · omega)
  · intro x hx1 hx2
    refine ⟨?_, ?_, ?_, ?_⟩
    · cases hb : ringPainted g4 5 (39 * 100 + x)
      · rfl
      · exfalso
        have := (g4_painted_iff x 39 (by omega) (by omega)).mp hb
        omega
    · cases hb : ringPainted g4 5 (61 * 100 + x)
      · rfl
      · exfalso
        have := (g4_painted_iff x 61 (by omega) (by omega)).mp hb
        omega
    · cases hb : ringPainted g4 5 (x * 100 + 39)
      · rfl
      · exfalso
        have := (g4_painted_iff 39 x (by omega) (by omega)).mp hb
        omega
    · cases hb : ringPainted g4 5 (x * 100 + 61)
      · rfl
      · exfalso
        have := (g4_painted_iff 61 x (by omega) (by omega)).mp hb
        omega

theorem C4_witness :
    (45 ≤ 50 ∧ 50 ≤ 55 ∧ 1 ≤ 5 ∧ 5 ≤ 5) ∧
      ringPainted g4 5 (50 * 100 + 50) = false ∧
      ringPainted g4 5 ((45 - 5) * 100 + 50) = true ∧
      ringPainted g4 5 (39 * 100 + 50) = false :=
  ⟨⟨by decide, by decide, by decide, by decide⟩,
    C4_square_scenario.1 50 50 (by decide) (by decide) (by decide) (by decide),
    (C4_square_scenario.2.1 50 (by decide) (by decide) 5 (by decide)
      (by decide)).1,
    (C4_square_scenario.2.2 50 (by decide) (by decide)).1⟩

end Scenario

section ErrorPaths

/-- C6: whenever rasterization produces zero foreground pixels, both
generators reject with an error and produce no overlay image (the
annotation path also rejects an empty shape list before rasterizing). -/
theorem C6_zero_foreground_rejects :
    (∀ (fill : List (Int × Int) → Nat → Nat → Bool)
      (shapes : List AnnotationShape) (w h radius : Nat) (color : RGBA),
      foregroundCount ⟨w, h, rasterizeMask fill shapes w⟩ = 0 →
      ( generatePeritumoralRingFromAnnotation fill shapes w h radius
        color).isOk = false) ∧
    (∀ (img : Nat → RGBA) (w h radius : Nat) (color : RGBA),
      foregroundCount ⟨w, h, fun i => isForegroundPix (img i)⟩ = 0 →
      (generatePeritumoralRing img w h radius color).isOk = false) := by
  constructor
  · intro fill shapes w h radius color hfc
    rw [ generatePeritumoralRingFromAnnotation]
    by_cases hs : shapes.length = 0
    · rw [if_pos hs]
      rfl
    · rw [if_neg hs]
      show (if foregroundCount ⟨w, h, rasterizeMask fill shapes w⟩ = 0 then
          (Except.error ("No foreground pixels found in mask") :
            Except String (Nat → RGBA))
        else Except.ok
          (ringImage ⟨w, h, rasterizeMask fill shapes w⟩ radius color)).isOk
          = false
      rw [if_pos hfc]
      rfl
  · intro img w h radius color hfc
    rw [generatePeritumoralRing]
    show (if foregroundCount ⟨w, h, fun i => isForegroundPix (img i)⟩ = 0 then
        (Except.error ("No foreground pixels found in mask") :
          Except String (Nat → RGBA))
      else Except.ok
        (ringImage ⟨w, h, fun i => isForegroundPix (img i)⟩ radius
          color)).isOk = false
    rw [if_pos hfc]
    rfl

theorem C6_witness :
    foregroundCount ⟨2, 2, rasterizeMask specFill degShapes 2⟩ = 0 ∧
      ( generatePeritumoralRingFromAnnotation specFill degShapes 2 2 1
        ⟨255, 165, 0, 200⟩).isOk = false ∧
      foregroundCount ⟨1, 1, fun i =>
        isForegroundPix ((fun _ => (⟨0, 0, 0, 0⟩ : RGBA)) i)⟩ = 0 ∧
      (generatePeritumoralRing (fun _ => ⟨0, 0, 0, 0⟩) 1 1 1
        ⟨255, 165, 0, 200⟩).isOk = false :=
  ⟨by decide,
    C6_zero_foreground_rejects.1 specFill degShapes 2 2 1 ⟨255, 165, 0, 200⟩
      (by decide),
    by decide,
    C6_zero_foreground_rejects.2 (fun _ => ⟨0, 0, 0, 0⟩) 1 1 1
      ⟨255, 165, 0, 200⟩ (by decide)⟩

/-- C7 fails on the code: an annotation may contain a degenerate
polygon and still succeed, because degenerate polygons are silently
skipped during drawing.  Concretely, `cexShapes` contains a 2-point
polygon next to a full-canvas square, and the generator returns a ring
image instead of an error. -/
theorem C7_counterexample :
    cexShapes.any (fun s => decide (s.points.length < 3)) = true ∧
      ( generatePeritumoralRingFromAnnotation specFill cexShapes 4 4 1
        ⟨255, 165, 0, 200⟩).isOk = true := by
  constructor
  · decide
  · decide

/-- C7 (amended): degenerate polygons (fewer than 3 points) are
skipped, not rejected; the generator fails with the input error only
when the shape list is empty or the drawn mask has no foreground pixel
— in particular whenever every shape of a nonempty annotation is
degenerate, nothing is drawn and the generator rejects with
"No foreground pixels found in mask". -/
theorem C7_amended_degenerate_fails_only_without_foreground
    (fill : List (Int × Int) → Nat → Nat → Bool)
    (shapes : List AnnotationShape) (w h radius : Nat) (color : RGBA)
    (hne : shapes ≠ [])
    (hdeg : ∀ s ∈ shapes, s.points.length < 3) :
    generatePeritumoralRingFromAnnotation fill shapes w h radius color =
      Except.error ("No foreground pixels found in mask") := by
  rw [ generatePeritumoralRingFromAnnotation,
    if_neg (fun hlen => hne (List.length_eq_zero.mp hlen))]
  have hmask : ∀ i, rasterizeMask fill shapes w i = false := by
    intro i
    rw [rasterizeMask]
    cases hb : shapes.any (fun s => decide (3 ≤ s.points.length) &&
        fill s.points (i % w) (i / w))
    · rfl
    · exfalso
      obtain ⟨s, hs, hsp⟩ := List.any_eq_true.mp hb
      rw [Bool.and_eq_true, decide_eq_true_eq] at hsp
      have := hdeg s hs
      omega
  have hfc : foregroundCount ⟨w, h, rasterizeMask fill shapes w⟩ = 0 := by
    rw [foregroundCount, List.length_eq_zero, fgList]
    refine List.filter_eq_nil.mpr ?_
    intro a _
    show ¬ rasterizeMask fill shapes w a = true
    rw [hmask a]
    exact Bool.false_ne_true
  show (if foregroundCount ⟨w, h, rasterizeMask fill shapes w⟩ = 0 then
      (Except.error ("No foreground pixels found in mask") :
        Except String (Nat → RGBA))
    else Except.ok
      (ringImage ⟨w, h, rasterizeMask fill shapes w⟩ radius color))
      = Except.error ("No foreground pixels found in mask")
  rw [if_pos hfc]

theorem C7_amended_witness :
    degShapes ≠ [] ∧ (∀ s ∈ degShapes, s.points.length < 3) ∧
      generatePeritumoralRingFromAnnotation specFill degShapes 3 3 1
        ⟨255, 165, 0, 200⟩ =
        Except.error ("No foreground pixels found in mask") :=
  ⟨by decide, by decide,
    C7_amended_degenerate_fails_only_without_foreground specFill degShapes
      3 3 1 ⟨255, 165, 0, 200⟩ (by decide) (by decide)⟩

end ErrorPaths

namespace Bbox

theorem foldl_stepPoint_eq (pts : List (Option Int × Option Int)) :
    ∀ acc, pts.foldl stepPoint acc = (pts.filterMap validPt).foldl vstep acc := by
  induction pts with
  | nil =>
    intro acc
    rfl
  | cons pt pts ih =>
    intro acc
    rcases pt with ⟨ox, oy⟩
    cases ox with
    | none =>
      cases oy with
      | none =>
        rw [List.foldl_cons, show stepPoint acc (none, none) = acc from rfl]
        rw [show ((none, none) :: pts).filterMap validPt
            = pts.filterMap validPt from by simp [List.filterMap_cons, validPt]]
        exact ih acc
      | some y =>
        rw [List.foldl_cons, show stepPoint acc (none, some y) = acc from rfl]
        rw [show ((none, some y) :: pts).filterMap validPt
            = pts.filterMap validPt from by simp [List.filterMap_cons, validPt]]
        exact ih acc
    | some x =>
      cases oy with
      | none =>
        rw [List.foldl_cons, show stepPoint acc (some x, none) = acc from rfl]
        rw [show ((some x, none) :: pts).filterMap validPt
            = pts.filterMap validPt from by simp [List.filterMap_cons, validPt]]
        exact ih acc
      | some y =>
        rw [List.foldl_cons,
          show stepPoint acc (some x, some y) = vstep acc (x, y) from rfl]
        rw [show ((some x, some y) :: pts).filterMap validPt
            = (x, y) :: pts.filterMap validPt from by
          simp [List.filterMap_cons, validPt]]
        rw [List.foldl_cons]
        exact ih _

theorem candidates_fold (shapes : List AnnotationShape) :
    ∀ acc, shapes.foldl (fun a s => s.points.foldl stepPoint a) acc =
      (validPoints shapes).foldl vstep acc := by
  induction shapes with
  | nil =>
    intro acc
    rfl
  | cons s ss ih =>
    intro acc
    rw [List.foldl_cons, foldl_stepPoint_eq, ih,
      show validPoints (s :: ss)
        = s.points.filterMap validPt ++ validPoints ss from rfl,
      List.foldl_append]

theorem foldl_vstep_some (vs : List (Int × Int)) :
    ∀ a b c d : Int, vs.foldl vstep (some a, some b, some c, some d) =
      (some (vs.foldl (fun m q => min m q.1) a),
       some (vs.foldl (fun m q => min m q.2) b),
       some (vs.foldl (fun m q => max m q.1) c),
       some (vs.foldl (fun m q => max m q.2) d)) := by
  induction vs with
  | nil =>
    intro a b c d
    rfl
  | cons v vs ih =>
    intro a b c d
    rw [List.foldl_cons,
      show vstep (some a, some b, some c, some d) v
        = (some (min a v.1), some (min b v.2), some (max c v.1),
          some (max d v.2)) from rfl, ih]
    rfl

/-- The extractor agrees with the spec-side min/max box over the valid
points of the candidate shapes. -/
theorem extract_eq_bboxOfPoints (shapes : List AnnotationShape)
    (hne : shapes ≠ []) :
    extractAnnotationBbox shapes =
      bboxOfPoints (validPoints (candidatesOf shapes)) := by
  rw [extractAnnotationBbox,
    if_neg (fun hlen => hne (List.length_eq_zero.mp hlen))]
  show (match (candidatesOf shapes).foldl
      (fun a s => s.points.foldl stepPoint a) (none, none, none, none) with
    | (some a, some b, some c, some d) =>
      some (⟨a, b, c, d⟩ : AnnotationBbox)
    | _ => none) = _
  rw [candidates_fold]
  cases hv : validPoints (candidatesOf shapes) with
  | nil => rfl
  | cons v rest =>
    rw [List.foldl_cons,
      show vstep (none, none, none, none) v
        = (some v.1, some v.2, some v.1, some v.2) from rfl,
      foldl_vstep_some]
    rfl

end Bbox

/-- C8: with one shape labeled "liver" and one labeled "tumor_lesion",
the box is computed from the "tumor_lesion" shape's points only; in
general the box spans the valid vertices of the keyword-matching
shapes, or of all shapes when none match. -/
theorem C8_bbox_keyword_filtering :
    Bbox.extractAnnotationBbox [Bbox.liverShape, Bbox.tumorShape] =
      some ⟨0, 0, 10, 10⟩ ∧
    (∀ shapes : List Bbox.AnnotationShape, shapes ≠ [] →
      ((shapes.filter (fun s => Bbox.matchesAnnotation s.label) ≠ [] →
        Bbox.extractAnnotationBbox shapes =
          Bbox.bboxOfPoints (Bbox.validPoints
            (shapes.filter (fun s => Bbox.matchesAnnotation s.label)))) ∧
      (shapes.filter (fun s => Bbox.matchesAnnotation s.label) = [] →
        Bbox.extractAnnotationBbox shapes =
          Bbox.bboxOfPoints (Bbox.validPoints shapes)))) := by
  constructor
  · decide
  · intro shapes hne
    constructor
    · intro hf
      rw [Bbox.extract_eq_bboxOfPoints shapes hne]
      have hc : Bbox.candidatesOf shapes =
          shapes.filter (fun s => Bbox.matchesAnnotation s.label) := by
        rw [Bbox.candidatesOf]
        exact if_pos (List.length_pos.mpr hf)
      rw [hc]
    · intro hf
      rw [Bbox.extract_eq_bboxOfPoints shapes hne]
      have hc : Bbox.candidatesOf shapes = shapes := by
        rw [Bbox.candidatesOf, hf]
        rfl
      rw [hc]

theorem C8_witness :
    ([Bbox.liverShape, Bbox.tumorShape] : List Bbox.AnnotationShape) ≠ [] ∧
      [Bbox.liverShape, Bbox.tumorShape].filter
        (fun s => Bbox.matchesAnnotation s.label) ≠ [] ∧
      Bbox.extractAnnotationBbox [Bbox.liverShape, Bbox.tumorShape] =
        Bbox.bboxOfPoints (Bbox.validPoints
          ([Bbox.liverShape, Bbox.tumorShape].filter
            (fun s => Bbox.matchesAnnotation s.label))) :=
  ⟨by decide, by decide,
    (C8_bbox_keyword_filtering.2 [Bbox.liverShape, Bbox.tumorShape]
      (by decide)).1 (by decide)⟩

/-- C9 fails on the code: the extractor can return `null` although a
shape contributes a numeric point — when the keyword-matching shapes
have no valid points, the non-matching shapes are ignored entirely.
`cex9` has a point-less "lesion" shape and a "liver" triangle. -/
theorem C9_counterexample :
    Bbox.extractAnnotationBbox Bbox.cex9 = none ∧
      Bbox.cex9.any
        (fun s => s.points.any (fun pt => (Bbox.validPt pt).isSome)) = true := by
  constructor
  · decide
  · decide

/-- C9 (amended): the extractor returns `null` exactly when the shape
list is empty or the candidate shapes (the keyword-matching ones if
any, else all shapes) contribute no point with numeric x and y;
otherwise it returns the min/max box over the candidate points.  The
triangle (0,0), (10,0), (0,10) yields exactly {x1:0, y1:0, x2:10,
y2:10}. -/
theorem C9_amended_null_iff_no_candidate_points :
    (∀ shapes : List Bbox.AnnotationShape,
      (Bbox.extractAnnotationBbox shapes = none ↔
        shapes = [] ∨
          Bbox.validPoints (Bbox.candidatesOf shapes) = [])) ∧
    (∀ shapes : List Bbox.AnnotationShape, shapes ≠ [] →
      Bbox.extractAnnotationBbox shapes =
        Bbox.bboxOfPoints (Bbox.validPoints (Bbox.candidatesOf shapes))) ∧
    Bbox.extractAnnotationBbox [Bbox.triShape] = some ⟨0, 0, 10, 10⟩ := by
  refine ⟨?_, ?_, by decide⟩
  · intro shapes
    by_cases hne : shapes = []
    · subst hne
      simp [Bbox.extractAnnotationBbox]
    · rw [Bbox.extract_eq_bboxOfPoints shapes hne]
      cases hv : Bbox.validPoints (Bbox.candidatesOf shapes) with
      | nil => simp [Bbox.bboxOfPoints, hne]
      | cons v rest =>
        simp [Bbox.bboxOfPoints, hne, hv]
  · intro shapes hne
    exact Bbox.extract_eq_bboxOfPoints shapes hne

section Determinism

theorem isEdgeb_congr {g1 g2 : Grid} (hw : g1.w = g2.w) (hh : g1.h = g2.h)
    (hm : ∀ j, j < g1.w * g1.h → g1.mask j = g2.mask j)
    {i : Nat} (hi : i < g1.w * g1.h) : isEdgeb g1 i = isEdgeb g2 i := by
  have hwpos := (grid_pos hi).1
  have hd := idx_decomp g1.w i hwpos
  have hx := (coord_lt hi).1
  have hy := (coord_lt hi).2
  have h2 : i % g1.w < g1.w - 1 → i + 1 < g1.w * g1.h := by
    intro hg
    have hxx : i % g1.w + 1 < g1.w := by
      generalize i % g1.w = r at *
      omega
    have := pack_lt (w := g1.w) (h := g1.h) (x := i % g1.w + 1)
      (y := i / g1.w) hxx hy
    generalize i % g1.w = r at *
    generalize (i / g1.w) * g1.w = qq at *
    omega
  have h4 : i / g1.w < g1.h - 1 → i + g1.w < g1.w * g1.h := by
    intro hg
    have hyy : i / g1.w + 1 < g1.h := by
      generalize i / g1.w = dq at *
      omega
    have := pack_lt (w := g1.w) (h := g1.h) (x := i % g1.w)
      (y := i / g1.w + 1) hx hyy
    have hs : (i / g1.w + 1) * g1.w = (i / g1.w) * g1.w + g1.w :=
      Nat.succ_mul _ _
    generalize i % g1.w = r at *
    generalize (i / g1.w + 1) * g1.w = q1 at *
    generalize (i / g1.w) * g1.w = qq at *
    omega
  rw [isEdgeb, isEdgeb, ← hw, ← hh]
  have e1 : (decide (0 < i % g1.w) && !g1.mask (i - 1)) =
      (decide (0 < i % g1.w) && !g2.mask (i - 1)) := by
    by_cases h : 0 < i % g1.w
    · rw [hm (i - 1) (by omega)]
    · simp [h]
  have e2 : (decide (i % g1.w < g1.w - 1) && !g1.mask (i + 1)) =
      (decide (i % g1.w < g1.w - 1) && !g2.mask (i + 1)) := by
    by_cases h : i % g1.w < g1.w - 1
    · rw [hm (i + 1) (h2 h)]
    · simp [h]
  have e3 : (decide (0 < i / g1.w) && !g1.mask (i - g1.w)) =
      (decide (0 < i / g1.w) && !g2.mask (i - g1.w)) := by
    by_cases h : 0 < i / g1.w
    · rw [hm (i - g1.w) (by omega)]
    · simp [h]
  have e4 : (decide (i / g1.w < g1.h - 1) && !g1.mask (i + g1.w)) =
      (decide (i / g1.w < g1.h - 1) && !g2.mask (i + g1.w)) := by
    by_cases h : i / g1.w < g1.h - 1
    · rw [hm (i + g1.w) (h4 h)]
    · simp [h]
  rw [e1, e2, e3, e4]

theorem isSeed_congr {g1 g2 : Grid} (hw : g1.w = g2.w) (hh : g1.h = g2.h)
    (hm : ∀ j, j < g1.w * g1.h → g1.mask j = g2.mask j) (i : Nat) :
    isSeed g1 i = isSeed g2 i := by
  have hwh : g1.w * g1.h = g2.w * g2.h := by rw [hw, hh]
  by_cases hi : i < g1.w * g1.h
  · rw [isSeed, isSeed, ← hwh, hm i hi, isEdgeb_congr hw hh hm hi]
  · rw [isSeed, isSeed, ← hwh]
    simp [hi]

/-- C5: the generator is deterministic and depends only on the pixel
content of the mask: two grids of equal dimensions whose masks agree
on every in-range pixel produce pixel-identical output images for the
same radius and colour. -/
theorem C5_deterministic_output (g1 g2 : Grid) (radius : Nat)
    (color : RGBA) (hw : g1.w = g2.w) (hh : g1.h = g2.h)
    (hm : ∀ j, j < g1.w * g1.h → g1.mask j = g2.mask j) (p : Nat) :
    ringImage g1 radius color p = ringImage g2 radius color p := by
  have hwh : g1.w * g1.h = g2.w * g2.h := by rw [hw, hh]
  have hfg : fgList g1 = fgList g2 := by
    rw [fgList, fgList, ← hwh]
    exact List.filter_congr (fun i hi => hm i (List.mem_range.mp hi))
  have hD : ∀ q, D g1 q = D g2 q := by
    intro q
    rw [D, D, ← hfg, ← hw, ← hh]
  have hdist : ∀ q, distances g1 radius q = distances g2 radius q := by
    intro q
    rw [distances_eq, distances_eq, ← hwh]
    by_cases hq : q < g1.w * g1.h
    · rw [if_pos hq, if_pos hq, hm q hq, hD q, isSeed_congr hw hh hm q, hfg]
    · rw [if_neg hq, if_neg hq]
  simp only [ringImage]
  rw [hdist p, ← hwh]

theorem C5_witness :
    (gW.w = (⟨3, 3, fun i => decide (4 = i)⟩ : Grid).w) ∧
      (gW.h = (⟨3, 3, fun i => decide (4 = i)⟩ : Grid).h) ∧
      (∀ j, j < gW.w * gW.h →
        gW.mask j = (⟨3, 3, fun i => decide (4 = i)⟩ : Grid).mask j) ∧
      ringImage gW 1 ⟨255, 165, 0, 200⟩ 3 =
        ringImage ⟨3, 3, fun i => decide (4 = i)⟩ 1 ⟨255, 165, 0, 200⟩ 3 :=
  ⟨by decide, by decide, by decide,
    C5_deterministic_output gW ⟨3, 3, fun i => decide (4 = i)⟩ 1
      ⟨255, 165, 0, 200⟩ (by decide) (by decide) (by decide) 3⟩

end Determinism

theorem C9_amended_witness :
    ([Bbox.triShape] : List Bbox.AnnotationShape) ≠ [] ∧
      Bbox.extractAnnotationBbox [Bbox.triShape] =
        Bbox.bboxOfPoints (Bbox.validPoints
          (Bbox.candidatesOf [Bbox.triShape])) :=
  ⟨by decide,
    C9_amended_null_iff_no_candidate_points.2.1 [Bbox.triShape] (by decide)⟩

